import Mathlib

/-!
Shallow embedding of the core of the `rust-photorec` repository:

* `src/src/file_description.rs` — `ByteRun`, `FileDescription::new`, the
  positioned reader `FileDescriptionPos` (`at_pos`, `desc_read`, `adv`);
* `src/src/byte_runs.rs` — the legacy `ByteRunsRef::new` (same reader code);
* `src/src/reader.rs` — `ByteRunsReader::read`, modelled as one read step and
  an iterated read loop over a pure disk source;
* `src/src/segment_tree.rs` — the anchor-map segment tree (`get_segment`,
  `insert_segment`, `get_containing_segment`);
* `src/src/segment_array_tree.rs` — `SegmentArrayTree::add` and
  `search_intersecting`.

Machine integers (`u64`, `usize`) are modelled as `Nat`; the only places in the
modelled code where wrap-around or bounds behaviour matters are subtractions
and indexing, and those are modelled explicitly: a fallible operation returns
`Option`/a result type with a `panicked` case at exactly the places where the
Rust code can panic (out-of-bounds index, debug-build integer underflow,
explicit `panic!` / `unwrap`).
-/

/-- `ByteRun` from `file_description.rs` (identical in `byte_runs.rs`):
one contiguous mapping from a file-offset range to a disk-position range. -/
structure ByteRun where
  file_offset : Nat
  disk_pos : Nat
  len : Nat
deriving DecidableEq, Repr

/-- The derived `Ord` on `ByteRun`: lexicographic on
`(file_offset, disk_pos, len)`. -/
def ByteRun.leb (a b : ByteRun) : Bool :=
  if a.file_offset ≠ b.file_offset then decide (a.file_offset < b.file_offset)
  else if a.disk_pos ≠ b.disk_pos then decide (a.disk_pos < b.disk_pos)
  else decide (a.len ≤ b.len)

/-- Insert into a list sorted by `ByteRun.leb`. -/
def insRun (x : ByteRun) : List ByteRun → List ByteRun
  | [] => [x]
  | y :: r => if x.leb y then x :: y :: r else y :: insRun x r

/-- Sorting of the run vector. `FileDescription::new` calls
`Vec::sort_unstable` and `ByteRunsRef::new` calls `Vec::sort`; on the derived
total structural order the two produce the same list (elements comparing equal
are identical records), so both are modelled by one sort. -/
def sortRuns : List ByteRun → List ByteRun
  | [] => []
  | x :: r => insRun x (sortRuns r)

/-- `FileDescriptionError` from `file_description.rs`. -/
inductive FileDescriptionError where
  | Overlap (x y : ByteRun)
  | Gap (x y : ByteRun)
  | PreGap (y : ByteRun)
  | Empty
  | Trailing (r : ByteRun) (size : Nat)
  | Missing (size covered : Nat)
deriving DecidableEq, Repr

/-- `FileDescription`: the validated run cover plus the logical size. -/
structure FileDescription where
  runs : List ByteRun
  size : Nat
deriving DecidableEq, Repr

/-- The validation loop of `FileDescription::new`: `br` is the previous run,
`off` the running cumulative length; checks, in source order, `off > size`
(Trailing), then gap, then overlap, for each following run. -/
def FileDescription.check (size : Nat) : ByteRun → Nat → List ByteRun → Except FileDescriptionError Nat
  | _, off, [] => .ok off
  | br, off, br2 :: rest =>
    if size < off then .error (.Trailing br2 size)
    else if off < br2.file_offset then .error (.Gap br br2)
    else if br2.file_offset < off then .error (.Overlap br br2)
    else FileDescription.check size br2 (off + br2.len) rest

/-- `runs.last_mut().unwrap().len -= d`: trim the last run's length by `d`. -/
def trimLast (d : Nat) : List ByteRun → List ByteRun
  | [] => []
  | [r] => [{ r with len := r.len - d }]
  | r :: rest => r :: trimLast d rest

/-- `FileDescription::new` after the sort: first-run check, scan, `Missing`
check, trim. -/
def FileDescription.newSorted (size : Nat) : List ByteRun → Except FileDescriptionError FileDescription
  | [] => .error .Empty
  | br :: rest =>
    if br.file_offset ≠ 0 then .error (.PreGap br)
    else
      match FileDescription.check size br br.len rest with
      | .error e => .error e
      | .ok off =>
        if off < size then .error (.Missing size off)
        else .ok ⟨trimLast (off - size) (br :: rest), size⟩

/-- `FileDescription::new(size, runs)` from `file_description.rs`. -/
def FileDescription.new (size : Nat) (runs : List ByteRun) : Except FileDescriptionError FileDescription :=
  if runs.isEmpty then .error .Empty
  else FileDescription.newSorted size (sortRuns runs)

/-- `ByteRunsRefError` from `byte_runs.rs`: note there is no `Trailing` and no
`Missing` variant. -/
inductive ByteRunsRefError where
  | Overlap (x y : ByteRun)
  | Gap (x y : ByteRun)
  | PreGap (y : ByteRun)
  | Empty
deriving DecidableEq, Repr

/-- `ByteRunsRef` from `byte_runs.rs`. -/
structure ByteRunsRef where
  runs : List ByteRun
  size : Nat
deriving DecidableEq, Repr

/-- Result of `ByteRunsRef::new`; `panicked` models a debug-build integer
underflow panic. -/
inductive ByteRunsRefResult where
  | ok (r : ByteRunsRef)
  | err (e : ByteRunsRefError)
  | panicked
deriving DecidableEq, Repr

/-- The validation loop of `ByteRunsRef::new`: like
`FileDescription.check` but with no `Trailing` check. -/
def ByteRunsRef.check : ByteRun → Nat → List ByteRun → Except ByteRunsRefError Nat
  | _, off, [] => .ok off
  | br, off, br2 :: rest =>
    if off < br2.file_offset then .error (.Gap br br2)
    else if br2.file_offset < off then .error (.Overlap br br2)
    else ByteRunsRef.check br2 (off + br2.len) rest

/-- `ByteRunsRef::new(size, runs)` from `byte_runs.rs`. The final
`runs.last_mut().unwrap().len -= off - size` is a `u64` subtraction with no
preceding `off ≥ size` check: when `off < size` it underflows, which panics in
a debug build (modelled as `panicked`). -/
def ByteRunsRef.newSorted (size : Nat) : List ByteRun → ByteRunsRefResult
  | [] => .err .Empty
  | br :: rest =>
    if br.file_offset ≠ 0 then .err (.PreGap br)
    else
      match ByteRunsRef.check br br.len rest with
      | .error e => .err e
      | .ok off =>
        if off < size then .panicked
        else .ok ⟨trimLast (off - size) (br :: rest), size⟩

/-- `ByteRunsRef::new(size, runs)` from `byte_runs.rs` (see
`ByteRunsRef.newSorted` for the part after the sort). -/
def ByteRunsRef.new (size : Nat) (runs : List ByteRun) : ByteRunsRefResult :=
  if runs.isEmpty then .err .Empty
  else ByteRunsRef.newSorted size (sortRuns runs)

/-- The positioned reader `FileDescriptionPos` (without the borrowed
description, which is passed to each operation). -/
structure FileDescriptionPos where
  pos : Nat
  cur_run : Nat
  offset_in_run : Nat
deriving DecidableEq, Repr

/-- `slice::binary_search_by_key` on the key list, as specified by the Rust
standard library for a slice sorted by the key: `.ok i` with `keys[i] = target`
when the target occurs, else `.error` of the insertion point. On strictly
sorted keys (the only way `at_pos` uses it) this is exactly the library
behaviour. -/
def binSearchKeys : List Nat → Nat → Nat → Except Nat Nat
  | [], _, i => .error i
  | k :: rest, t, i =>
    if k = t then .ok i
    else if k < t then binSearchKeys rest t (i + 1)
    else .error i

/-- `FileDescription::at_pos` (identical code in `ByteRunsRef::at_pos`).
`none` models the panics of the source: the `usize` underflow `x - 1` when the
search result is `Err(0)`, and the index `runs[cur_run]` out of bounds; neither
is reachable for a description whose first run starts at offset 0 when
`pos ≤ size`. -/
def FileDescription.at_pos (fd : FileDescription) (pos : Nat) : Option FileDescriptionPos :=
  if fd.size < pos then some ⟨pos, fd.runs.length, 0⟩
  else
    match binSearchKeys (fd.runs.map ByteRun.file_offset) pos 0 with
    | .ok x =>
      match fd.runs[x]? with
      | some br => some ⟨pos, x, pos - br.file_offset⟩
      | none => none
    | .error x =>
      if x = 0 then none
      else
        match fd.runs[x - 1]? with
        | some br => some ⟨pos, x - 1, pos - br.file_offset⟩
        | none => none

/-- `desc_read` of the positioned reader: the remaining part of the current
run, or a zero-length sentinel at EOF (`cur_run = runs.len()`). `none` models
the out-of-bounds index panic (only possible for `cur_run > runs.len()`, which
no reachable state has). The subtraction `len - offset_in_run` is `u64`
subtraction in the source; reachable states have `offset_in_run ≤ len`, where
it agrees with `Nat` subtraction. -/
def FileDescription.desc_read (fd : FileDescription) (s : FileDescriptionPos) : Option ByteRun :=
  if s.cur_run = fd.runs.length then some ⟨s.pos, 0, 0⟩
  else
    match fd.runs[s.cur_run]? with
    | some br => some ⟨s.pos, br.disk_pos + s.offset_in_run, br.len - s.offset_in_run⟩
    | none => none

/-- `adv(n)` of the positioned reader. The source indexes
`runs[cur_run]` unconditionally — at EOF (`cur_run = runs.len()`) this panics
even for `n = 0` (modelled by `none`); `n` larger than the remaining length of
the current run hits the explicit `panic!` in the source (also `none`). -/
def FileDescription.adv (fd : FileDescription) (s : FileDescriptionPos) (n : Nat) : Option FileDescriptionPos :=
  match fd.runs[s.cur_run]? with
  | none => none
  | some br =>
    let rem := br.len - s.offset_in_run
    if n < rem then some ⟨s.pos + n, s.cur_run, s.offset_in_run + n⟩
    else if n = rem then some ⟨s.pos + rem, s.cur_run + 1, 0⟩
    else none

/-- `Segment<u64>` from `segment_tree.rs`: a half-open interval
`[start, end)`. The `end` field is written `«end»` because `end` is a Lean
keyword. -/
structure Seg where
  start : Nat
  «end» : Nat
deriving DecidableEq, Repr

/-- `SegmentValue<V>` from `segment_tree.rs`: the anchor stored at a key of the
underlying ordered map. `End(V)` is written `endv`. -/
inductive SegmentValue (V : Type) where
  | start
  | endv (v : V)
  | endStart (v : V)
deriving DecidableEq, Repr

/-- The `BTreeMap<K, SegmentValue<V>>` backing a `SegmentTree<u64, V>`,
modelled as an association list strictly sorted by key. -/
abbrev STree (V : Type) := List (Nat × SegmentValue V)

/-- Result of the `impl_segment!` classification (the body of `get_segment`,
`get_mut_segment` and `contains_segment`): `found v` is `Ok(Some(&v))` /
`Ok(true)`, `missing` is `Ok(None)` / `Ok(false)`, `intersect k` is
`Err(Intersect(k))`, and `panicked` is the
"range should not contain nodes after end" `panic!`. -/
inductive SegLookup (V : Type) where
  | found (v : V)
  | missing
  | intersect (k : Nat)
  | panicked
deriving DecidableEq, Repr

/-- `self.0.range(seg.start..=seg.end)`: the anchors with key in the closed
range `[start, end]`, in key order. -/
def rangeIncl (t : STree V) (seg : Seg) : List (Nat × SegmentValue V) :=
  t.filter fun p => decide (seg.start ≤ p.1) && decide (p.1 ≤ seg.«end»)

/-- Continuation of `impl_segment!` after a first anchor
`Start`/`EndStart` at key `seg.start` (named `k₁` in the error case). -/
def implAfterStart (seg : Seg) (k₁ : Nat) : List (Nat × SegmentValue V) → SegLookup V
  | (k₂, .endv v) :: rest2 =>
    if k₂ = seg.«end» then (match rest2 with | [] => .found v | _ => .panicked)
    else .intersect k₁
  | (k₂, .endStart v) :: rest2 =>
    if k₂ = seg.«end» then (match rest2 with | [] => .found v | _ => .panicked)
    else .intersect k₁
  | _ => .intersect k₁

/-- Continuation of `impl_segment!` after a first anchor `End(_)` at key
`seg.start`. -/
def implAfterEnd (seg : Seg) : List (Nat × SegmentValue V) → SegLookup V
  | [] => .missing
  | (k₂, .start) :: rest2 =>
    if k₂ = seg.«end» then (match rest2 with | [] => .missing | _ => .panicked)
    else .intersect k₂
  | (k₂, _) :: _ => .intersect k₂

/-- The `impl_segment!` macro of `segment_tree.rs` applied to the anchors of
the closed range `[seg.start, seg.end]`, with the Rust match-guard
fall-through spelled out. -/
def implSegment (seg : Seg) : List (Nat × SegmentValue V) → SegLookup V
  | [] => .missing
  | (k₁, .start) :: rest =>
    if k₁ = seg.start then implAfterStart seg k₁ rest
    else if k₁ = seg.«end» then (match rest with | [] => .missing | _ => .panicked)
    else .intersect k₁
  | (k₁, .endStart _) :: rest =>
    if k₁ = seg.start then implAfterStart seg k₁ rest
    else .intersect seg.start
  | (k₁, .endv _) :: rest =>
    if k₁ = seg.start then implAfterEnd seg rest
    else .intersect seg.start

/-- `SegmentTree::get_segment` (also the body of `contains_segment` and
`get_mut_segment`, which share `impl_segment!`). -/
def SegmentTree.get_segment (t : STree V) (seg : Seg) : SegLookup V :=
  implSegment seg (rangeIncl t seg)

/-- `BTreeMap::get` on the anchor map. -/
def treeFind (t : STree V) (k : Nat) : Option (SegmentValue V) :=
  (t.find? fun p => decide (p.1 = k)).map Prod.snd

/-- `BTreeMap::insert`/in-place update on the sorted association list. -/
def treeInsert (k : Nat) (a : SegmentValue V) : STree V → STree V
  | [] => [(k, a)]
  | (k', a') :: rest =>
    if k < k' then (k, a) :: (k', a') :: rest
    else if k = k' then (k, a) :: rest
    else (k', a') :: treeInsert k a rest

/-- `add_start` from `segment_tree.rs`: a vacant key gets a `Start` anchor; an
existing `End(v)` anchor is promoted to `EndStart(v)`; any other existing
anchor hits a `panic!` (modelled by `none`). -/
def add_start (t : STree V) (k : Nat) : Option (STree V) :=
  match treeFind t k with
  | none => some (treeInsert k .start t)
  | some (.endv v) => some (treeInsert k (.endStart v) t)
  | some _ => none

/-- `add_end` from `segment_tree.rs`: a vacant key gets `End(v)`; an existing
`Start` anchor is promoted to `EndStart(v)`; anything else panics. -/
def add_end (t : STree V) (k : Nat) (v : V) : Option (STree V) :=
  match treeFind t k with
  | none => some (treeInsert k (.endv v) t)
  | some .start => some (treeInsert k (.endStart v) t)
  | some _ => none

/-- `VacantEntry::insert`: `add_start` at `seg.start` then `add_end` at
`seg.end`. -/
def vacantInsert (t : STree V) (seg : Seg) (v : V) : Option (STree V) :=
  match add_start t seg.start with
  | none => none
  | some t₁ => add_end t₁ seg.«end» v

/-- Result of `SegmentTree::insert_segment`: `ok old t'` is
`Ok(old)` together with the updated map, `err k` is
`Err((value, Intersect(k)))` (the map unchanged, the value handed back), and
`panicked` models the internal anchor-kind panics. -/
inductive InsertResult (V : Type) where
  | ok (old : Option V) (t : STree V)
  | err (k : Nat)
  | panicked
deriving DecidableEq, Repr

/-- `SegmentTree::insert_segment`, by way of `entry_segment`
(whose `contains_segment` shares `impl_segment!`): a vacant entry gets
`VacantEntry::insert`, an occupied entry replaces the payload stored at the
`seg.end` anchor (`OccupiedEntry::insert` = `mem::replace` through `get_mut`,
keeping the anchor kind). -/
def SegmentTree.insert_segment (t : STree V) (seg : Seg) (v : V) : InsertResult V :=
  match SegmentTree.get_segment t seg with
  | .missing =>
    match vacantInsert t seg v with
    | some t' => .ok none t'
    | none => .panicked
  | .found _ =>
    match treeFind t seg.«end» with
    | some (.endv old) => .ok (some old) (treeInsert seg.«end» (.endv v) t)
    | some (.endStart old) => .ok (some old) (treeInsert seg.«end» (.endStart v) t)
    | _ => .panicked
  | .intersect k => .err k
  | .panicked => .panicked

/-- `SegmentTree::get_containing_segment(point)`: the last anchor with key
`≤ point` and the first anchor with key `> point`; `None` unless the former is
a (start-of-segment) `Start`/`EndStart` anchor and the latter carries the
payload of the segment ending there. -/
def SegmentTree.get_containing_segment (t : STree V) (point : Nat) : Option (Seg × V) :=
  match (t.filter fun p => decide (p.1 ≤ point)).getLast?,
        (t.filter fun p => decide (point < p.1)).head? with
  | some (ks, vs), some (ke, ve) =>
    (match vs with
     | .endv _ => none
     | _ =>
       match ve with
       | .endv x => some (⟨ks, ke⟩, x)
       | .endStart x => some (⟨ks, ke⟩, x)
       | .start => none)
  | _, _ => none

/-- `SegmentArrayTreeError` from `segment_array_tree.rs`. -/
inductive SegmentArrayTreeError where
  | IntersectingSegment (k : Nat)
  | OverlappingSegmentArrays (k₁ k₂ : Nat)
  | IncompatibleSegmentArrays (k : Nat)
deriving DecidableEq, Repr

/-- `AddStatus<M>` from `segment_array_tree.rs`. -/
inductive AddStatus (M : Type) where
  | Added
  | AlreadyContained (m : M)
  | Replaced (m : M)
deriving DecidableEq, Repr

/-- Result of the `SegmentArrayTree` operations: `err e` is
`Err((seg_arr, e))` (the argument handed back unchanged, the tree unmutated);
`panicked` models the `unwrap`s inside. -/
inductive SATRes (α : Type) where
  | ok (a : α)
  | err (e : SegmentArrayTreeError)
  | panicked
deriving DecidableEq, Repr

/-- `SegmentArrayTree<M, I>`: the embedded `SegmentTree<u64, usize>` plus the
vector of stored segment arrays. A stored `M : AsRef<[I]>` is modelled by its
segment slice `List I`; `toSeg` is the `for<'a> &'a I: Into<Segment<u64>>`
projection, and equality of `I` is the `Eq` bound used by `add`. -/
structure SegmentArrayTree (I : Type) where
  tree : STree Nat
  segment_arrays : List (List I)
deriving Repr

/-- The loop of `SegmentArrayTree::search_intersecting`, over the segments of
the candidate array: accumulates the single owning index, fails as the source
does, and panics (`unwrap`) if `get_containing_segment` misses on an
intersection witness. -/
def SegmentArrayTree.searchGo (t : STree Nat) : Option Nat → List Seg → SATRes (Option Nat)
  | idx, [] => .ok idx
  | idx, seg :: rest =>
    match SegmentTree.get_segment t seg with
    | .missing => SegmentArrayTree.searchGo t idx rest
    | .found x =>
      match idx with
      | none => SegmentArrayTree.searchGo t (some x) rest
      | some y =>
        if y ≠ x then .err (.OverlappingSegmentArrays y x)
        else SegmentArrayTree.searchGo t (some y) rest
    | .intersect point =>
      match SegmentTree.get_containing_segment t point with
      | some (_, owner) => .err (.IntersectingSegment owner)
      | none => .panicked
    | .panicked => .panicked

/-- `SegmentArrayTree::search_intersecting`. -/
def SegmentArrayTree.search_intersecting (toSeg : I → Seg) (sat : SegmentArrayTree I) (arr : List I) : SATRes (Option Nat) :=
  SegmentArrayTree.searchGo sat.tree none (arr.map toSeg)

/-- The segment-insertion loop at the end of `SegmentArrayTree::add`:
`entry_segment(seg).unwrap()` (sharing `impl_segment!`), inserting `idx` on a
vacant entry, skipping an occupied one, and panicking on `Err`. -/
def SegmentArrayTree.insertLoop (idx : Nat) : STree Nat → List Seg → Option (STree Nat)
  | t, [] => some t
  | t, seg :: rest =>
    match SegmentTree.get_segment t seg with
    | .found _ => SegmentArrayTree.insertLoop idx t rest
    | .missing =>
      match vacantInsert t seg idx with
      | some t' => SegmentArrayTree.insertLoop idx t' rest
      | none => none
    | _ => none

/-- `SegmentArrayTree::add`. On success returns the `AddStatus` and the
updated tree; on failure the argument goes back to the caller with the error
and the tree is unchanged (the `err` case). -/
def SegmentArrayTree.add (toSeg : I → Seg) [DecidableEq I] (sat : SegmentArrayTree I) (arr : List I) : SATRes (AddStatus (List I) × SegmentArrayTree I) :=
  match SegmentArrayTree.search_intersecting toSeg sat arr with
  | .panicked => .panicked
  | .err e => .err e
  | .ok none =>
    let m := sat.segment_arrays.length
    match SegmentArrayTree.insertLoop m sat.tree (arr.map toSeg) with
    | some t' => .ok (.Added, ⟨t', sat.segment_arrays ++ [arr]⟩)
    | none => .panicked
  | .ok (some x) =>
    match sat.segment_arrays[x]? with
    | none => .panicked
    | some stored =>
      if (arr.zip stored).all fun p => p.1 == p.2 then
        if stored.length < arr.length then
          match SegmentArrayTree.insertLoop x sat.tree (arr.map toSeg) with
          | some t' => .ok (.Replaced stored, ⟨t', sat.segment_arrays.set x arr⟩)
          | none => .panicked
        else .ok (.AlreadyContained arr, sat)
      else .err (.IncompatibleSegmentArrays x)

/-- Contiguity of consecutive runs in file space. -/
def Contig (a b : ByteRun) : Prop := b.file_offset = a.file_offset + a.len

instance (a b : ByteRun) : Decidable (Contig a b) :=
  inferInstanceAs (Decidable (b.file_offset = a.file_offset + a.len))

/-- Invariants of a valid `FileDescription` (spec §3): at least one run, the
first starting at file offset 0, consecutive runs contiguous in file space,
all lengths strictly positive, and the lengths summing exactly to `size`. -/
def FileDescription.Valid (fd : FileDescription) : Prop :=
  fd.runs ≠ [] ∧
  (∀ br ∈ fd.runs.head?, br.file_offset = 0) ∧
  List.Chain' Contig fd.runs ∧
  (∀ br ∈ fd.runs, 0 < br.len) ∧
  (fd.runs.map ByteRun.len).sum = fd.size

instance (fd : FileDescription) : Decidable fd.Valid :=
  inferInstanceAs (Decidable (_ ∧ _ ∧ _ ∧ _ ∧ _))

/-- One call of `<ByteRunsReader as Read>::read` from `reader.rs` over a pure
disk source `f` (the byte stored at each disk position) and a positioned
reader state `s`. `bufLen` is the caller's buffer length; `cap` chooses how
many of the permitted `min bufLen desc.len` bytes the underlying source
actually delivers on this call (any positive count up to the permitted
maximum, modelling an arbitrary short read of an inexhaustible source).
Returns the bytes read and the advanced state; `none` models a panic inside
`desc_read`/`adv`. -/
def readOnce (fd : FileDescription) (f : Nat → Nat) (bufLen cap : Nat) (s : FileDescriptionPos) : Option (List Nat × FileDescriptionPos) :=
  match fd.desc_read s with
  | none => none
  | some d =>
    if d.len = 0 then some ([], s)
    else
      let m := min bufLen d.len
      let k := max 1 (min cap m)
      match fd.adv s k with
      | none => none
      | some s' => some ((List.range k).map (fun j => f (d.disk_pos + j)), s')

/-- Iterated `read` until it returns 0, as `read_to_end` does: call `i` uses
buffer length `B i + 1` (an arbitrary positive length) and short-read choice
`C i`. Structural fuel; the round-trip theorem shows `size + 1` fuel always
suffices, so the `none` at fuel 0 is never taken there. -/
def readAll (fd : FileDescription) (f : Nat → Nat) (B C : Nat → Nat) : Nat → Nat → FileDescriptionPos → Option (List Nat)
  | 0, _, _ => none
  | fuel + 1, i, s =>
    match readOnce fd f (B i + 1) (C i) s with
    | none => none
    | some ([], _) => some []
    | some (bytes, s') =>
      match readAll fd f B C fuel (i + 1) s' with
      | none => none
      | some out => some (bytes ++ out)

/-- The bytes of one run as read from the disk source `f`. -/
def runBytes (f : Nat → Nat) (r : ByteRun) : List Nat :=
  (List.range r.len).map fun j => f (r.disk_pos + j)

/-- The concatenation of the disk segments of a description in file-offset
order, read from the disk source `f`. -/
def diskContent (fd : FileDescription) (f : Nat → Nat) : List Nat :=
  fd.runs.flatMap (runBytes f)

/-- The bytes still to be delivered from a positioned-reader state: the rest
of the current run, then the remaining runs. -/
def tailContent (fd : FileDescription) (f : Nat → Nat) (s : FileDescriptionPos) : List Nat :=
  match fd.runs[s.cur_run]? with
  | none => []
  | some r =>
    ((List.range (r.len - s.offset_in_run)).map fun j => f (r.disk_pos + s.offset_in_run + j)) ++
      (fd.runs.drop (s.cur_run + 1)).flatMap (runBytes f)

/-- States of the read loop: either EOF, or a cursor strictly inside a run in
bounds, with `pos` consistent. -/
def GoodState (fd : FileDescription) (s : FileDescriptionPos) : Prop :=
  (s.cur_run = fd.runs.length ∧ s.pos = fd.size) ∨
  (∃ (h : s.cur_run < fd.runs.length),
    s.offset_in_run < fd.runs[s.cur_run].len ∧
    s.pos = fd.runs[s.cur_run].file_offset + s.offset_in_run)

/-- Anchor-map entries ordered by key. -/
def keyLt (p q : Nat × SegmentValue V) : Prop := p.1 < q.1

instance : IsTrans (Nat × SegmentValue V) keyLt :=
  ⟨fun _ _ _ h₁ h₂ => Nat.lt_trans h₁ h₂⟩

instance (p q : Nat × SegmentValue V) : Decidable (keyLt p q) :=
  inferInstanceAs (Decidable (p.1 < q.1))

/-- A list of stored segments `(start, end, value)`: starts strictly before
ends, and pairwise disjoint (touching allowed) in increasing order. -/
def SegsWF (segs : List (Nat × Nat × V)) : Prop :=
  (∀ x ∈ segs, x.1 < x.2.1) ∧ segs.Pairwise (fun a b => a.2.1 ≤ b.1)

/-- The anchors contributed by the segments after an open end `e` carrying
`v`: the end anchor merges with the next start into `EndStart` exactly when
they touch. -/
def encodeRest (e : Nat) (v : V) : List (Nat × Nat × V) → List (Nat × SegmentValue V)
  | [] => [(e, .endv v)]
  | (s', e', v') :: rest =>
    if s' = e then (e, .endStart v) :: encodeRest e' v' rest
    else (e, .endv v) :: (s', .start) :: encodeRest e' v' rest

/-- The anchor map encoding a disjoint, sorted list of stored segments. -/
def encode : List (Nat × Nat × V) → List (Nat × SegmentValue V)
  | [] => []
  | (s, e, v) :: rest => (s, .start) :: encodeRest e v rest

/-- Ordered insertion (by start) of a new stored segment. -/
def insertSeg (x : Nat × Nat × V) : List (Nat × Nat × V) → List (Nat × Nat × V)
  | [] => [x]
  | y :: r => if x.1 < y.1 then x :: y :: r else y :: insertSeg x r

/-- Some stored segment starts at `k`. -/
def startsAt (segs : List (Nat × Nat × V)) (k : Nat) : Prop := ∃ x ∈ segs, x.1 = k

/-- Some stored segment ends at `k` with payload `v`. -/
def endsAt (segs : List (Nat × Nat × V)) (k : Nat) (v : V) : Prop :=
  ∃ x ∈ segs, x.2.1 = k ∧ x.2.2 = v

instance : IsAntisymm (Nat × SegmentValue V) keyLt :=
  ⟨fun _ _ h₁ h₂ => absurd (Nat.lt_trans h₁ h₂) (Nat.lt_irrefl _)⟩

/-! ### Basic facts about the run sort and the validation scans -/

theorem insRun_perm (x : ByteRun) (l : List ByteRun) : List.Perm (insRun x l) (x :: l) := by
  induction l with
  | nil => simp [insRun]
  | cons y r ih =>
    unfold insRun
    split
    · exact List.Perm.refl _
    · exact (List.Perm.cons y ih).trans (List.Perm.swap x y r)

theorem sortRuns_perm (l : List ByteRun) : List.Perm (sortRuns l) l := by
  induction l with
  | nil => simp [sortRuns]
  | cons x r ih => exact (insRun_perm x (sortRuns r)).trans (List.Perm.cons x ih)

theorem sortRuns_len_sum (l : List ByteRun) :
    ((sortRuns l).map ByteRun.len).sum = (l.map ByteRun.len).sum :=
  ((sortRuns_perm l).map ByteRun.len).sum_eq

theorem sortRuns_ne_nil {l : List ByteRun} (h : l ≠ []) : sortRuns l ≠ [] := by
  intro hc
  exact h (List.Perm.eq_nil ((sortRuns_perm l).symm.trans (hc ▸ List.Perm.refl _)))

theorem brr_check_contig (rest : List ByteRun) : ∀ br off,
    off = br.file_offset + br.len →
    List.Chain' Contig (br :: rest) →
    ByteRunsRef.check br off rest = .ok (off + (rest.map ByteRun.len).sum) := by
  induction rest with
  | nil => intro br off _ _; simp [ByteRunsRef.check]
  | cons br2 rest' ih =>
    intro br off hoff hchain
    have h2 : br2.file_offset = br.file_offset + br.len :=
      (List.chain'_cons.mp hchain).1
    have heq : br2.file_offset = off := by omega
    have := ih br2 (off + br2.len) (by omega) (List.chain'_cons.mp hchain).2
    simp only [ByteRunsRef.check, heq]
    rw [if_neg (by omega), if_neg (by omega), this]
    simp [Nat.add_assoc]

theorem fd_check_to_brr (size : Nat) (rest : List ByteRun) : ∀ br off off',
    FileDescription.check size br off rest = .ok off' →
    ByteRunsRef.check br off rest = .ok off' := by
  induction rest with
  | nil =>
    intro br off off' h
    simpa [FileDescription.check, ByteRunsRef.check] using h
  | cons br2 rest' ih =>
    intro br off off' h
    simp only [FileDescription.check] at h
    split at h
    · exact absurd h (by simp)
    · split at h
      · exact absurd h (by simp)
      · split at h
        · exact absurd h (by simp)
        · simp only [ByteRunsRef.check]
          rw [if_neg ‹¬off < br2.file_offset›, if_neg ‹¬br2.file_offset < off›]
          exact ih br2 (off + br2.len) off' h

/-- **C9.** The legacy constructor `ByteRunsRef::new` has no way to report a
missing cover: its error enumeration stops at `Empty`/`PreGap`/`Gap`/`Overlap`
(see `ByteRunsRefError`), and on any input whose sorted runs pass those checks
(nonempty, first offset 0, contiguous) while covering strictly less than
`size`, the trim `runs.last_mut().unwrap().len -= off - size` underflows in
`u64` (a debug-build panic) instead of returning an error. -/
theorem byteRunsRef_new_undercover_panics (size : Nat) (runs : List ByteRun)
    (br : ByteRun) (rest : List ByteRun)
    (hs : sortRuns runs = br :: rest) (h0 : br.file_offset = 0)
    (hchain : List.Chain' Contig (br :: rest))
    (hlt : (runs.map ByteRun.len).sum < size) :
    ByteRunsRef.new size runs = .panicked := by
  have hne : runs ≠ [] := by
    intro hc; rw [hc] at hs; simp [sortRuns] at hs
  have hsum : br.len + (rest.map ByteRun.len).sum = (runs.map ByteRun.len).sum := by
    have := sortRuns_len_sum runs
    rw [hs] at this
    simpa using this
  unfold ByteRunsRef.new
  rw [if_neg (by simpa [List.isEmpty_iff] using hne), hs]
  simp only [ByteRunsRef.newSorted]
  rw [if_neg (by simp [h0])]
  simp only [brr_check_contig rest br br.len (by omega) hchain]
  rw [if_pos (by omega)]

/-- Witness for `byteRunsRef_new_undercover_panics`. -/
theorem byteRunsRef_new_undercover_panics_witness :
    ByteRunsRef.new 5 [⟨0, 0, 3⟩] = .panicked :=
  byteRunsRef_new_undercover_panics 5 [⟨0, 0, 3⟩] ⟨0, 0, 3⟩ [] rfl rfl
    (by constructor) (by decide)

/-- **C10.** Refinement: whenever `FileDescription::new(size, runs)` succeeds,
the legacy `ByteRunsRef::new(size, runs)` succeeds too, with the same size and
the identical sorted, last-run-trimmed run array — the newer constructor only
adds the `Trailing` and `Missing` rejections. -/
theorem fileDescription_new_refines_byteRunsRef_new (size : Nat)
    (runs : List ByteRun) (fd : FileDescription)
    (h : FileDescription.new size runs = .ok fd) :
    ByteRunsRef.new size runs = .ok ⟨fd.runs, fd.size⟩ := by
  unfold FileDescription.new at h
  split at h
  · exact absurd h (by simp)
  · rename_i hne
    unfold ByteRunsRef.new
    rw [if_neg hne]
    cases hs : sortRuns runs with
    | nil => rw [hs] at h; simp [FileDescription.newSorted] at h
    | cons br rest =>
      rw [hs] at h
      simp only [FileDescription.newSorted] at h
      simp only [ByteRunsRef.newSorted]
      split at h
      · exact absurd h (by simp)
      · rename_i hb0
        rw [if_neg hb0]
        split at h
        · exact absurd h (by simp)
        · rename_i off hchk
          simp only [fd_check_to_brr size rest br br.len off hchk]
          split at h
          · exact absurd h (by simp)
          · rename_i hge
            rw [if_neg hge]
            have hfd : fd = ⟨trimLast (off - size) (br :: rest), size⟩ := by
              cases h; rfl
            rw [hfd]

/-- Witness for `fileDescription_new_refines_byteRunsRef_new`. -/
theorem fileDescription_new_refines_byteRunsRef_new_witness :
    ByteRunsRef.new 123 [⟨50, 8000, 50⟩, ⟨100, 2000, 50⟩, ⟨0, 16000, 50⟩] =
      .ok ⟨[⟨0, 16000, 50⟩, ⟨50, 8000, 50⟩, ⟨100, 2000, 23⟩], 123⟩ :=
  fileDescription_new_refines_byteRunsRef_new 123
    [⟨50, 8000, 50⟩, ⟨100, 2000, 50⟩, ⟨0, 16000, 50⟩]
    ⟨[⟨0, 16000, 50⟩, ⟨50, 8000, 50⟩, ⟨100, 2000, 23⟩], 123⟩ rfl

/-- **C3 counterexample.** The claim says `new` fails with `Trailing` whenever
some sorted run begins at or past `size`, including exactly at `size`. The
code instead: (a) accepts a final run beginning exactly at `size` (trimming it
to length 0), because the `off > size` test is strict and is only evaluated
when a further run follows; (b) reports `Gap`, not `Trailing`, for a run
beginning past `size` when the running cover has not yet passed `size`. -/
theorem fileDescription_new_trailing_counterexample :
    FileDescription.new 5 [⟨0, 0, 5⟩, ⟨5, 100, 3⟩] =
      .ok ⟨[⟨0, 0, 5⟩, ⟨5, 100, 0⟩], 5⟩ ∧
    FileDescription.new 5 [⟨0, 0, 5⟩, ⟨6, 0, 2⟩] =
      .error (.Gap ⟨0, 0, 5⟩ ⟨6, 0, 2⟩) :=
  ⟨rfl, rfl⟩

theorem fd_check_trailing (size : Nat) (r : ByteRun) (post : List ByteRun)
    (pre : List ByteRun) : ∀ br off,
    off = br.file_offset + br.len →
    List.Chain' Contig (br :: (pre ++ r :: post)) →
    (∀ x ∈ pre, x.file_offset ≤ size) →
    size < r.file_offset →
    FileDescription.check size br off (pre ++ r :: post) =
      .error (.Trailing r size) := by
  induction pre with
  | nil =>
    intro br off hoff hchain _ hr
    have h2 : r.file_offset = br.file_offset + br.len :=
      (List.chain'_cons.mp hchain).1
    simp only [List.nil_append, FileDescription.check]
    rw [if_pos (by omega)]
  | cons x pre' ih =>
    intro br off hoff hchain hpre hr
    have hchain' : List.Chain' Contig (br :: x :: (pre' ++ r :: post)) := by
      simpa using hchain
    have h2 : x.file_offset = br.file_offset + br.len :=
      (List.chain'_cons.mp hchain').1
    have hx : x.file_offset ≤ size := hpre x (by simp)
    simp only [List.cons_append, FileDescription.check]
    rw [if_neg (by omega), if_neg (by omega), if_neg (by omega)]
    exact ih x (off + x.len) (by omega) (List.chain'_cons.mp hchain').2
      (fun y hy => hpre y (by simp [hy])) hr

/-- **C3 amended.** For a collection of byte-runs whose sorted form is a
contiguous cover starting at offset 0, if some run begins strictly past
`size`, `FileDescription::new(size, runs)` fails with `Trailing(r, size)`
naming the first such run (the `Trailing` test is `off > size` on the running
cover, evaluated before the gap/overlap tests). A final run beginning exactly
at `size` is instead accepted with its length trimmed to 0, and a
non-contiguous input can fail earlier with `Gap`/`Overlap`. -/
theorem fileDescription_new_trailing (size : Nat) (runs : List ByteRun)
    (br r : ByteRun) (pre post : List ByteRun)
    (hs : sortRuns runs = br :: (pre ++ r :: post)) (h0 : br.file_offset = 0)
    (hchain : List.Chain' Contig (br :: (pre ++ r :: post)))
    (hpre : ∀ x ∈ pre, x.file_offset ≤ size)
    (hr : size < r.file_offset) :
    FileDescription.new size runs = .error (.Trailing r size) := by
  have hne : runs ≠ [] := by
    intro hc; rw [hc] at hs; simp [sortRuns] at hs
  unfold FileDescription.new
  rw [if_neg (by simpa [List.isEmpty_iff] using hne), hs]
  simp only [FileDescription.newSorted]
  rw [if_neg (by simp [h0])]
  simp only [fd_check_trailing size r post pre br br.len (by omega) hchain hpre hr]

/-- Witness for `fileDescription_new_trailing`. -/
theorem fileDescription_new_trailing_witness :
    FileDescription.new 5 [⟨0, 0, 5⟩, ⟨5, 10, 2⟩, ⟨7, 20, 1⟩] =
      .error (.Trailing ⟨7, 20, 1⟩ 5) :=
  fileDescription_new_trailing 5 [⟨0, 0, 5⟩, ⟨5, 10, 2⟩, ⟨7, 20, 1⟩]
    ⟨0, 0, 5⟩ ⟨7, 20, 1⟩ [⟨5, 10, 2⟩] [] rfl rfl
    (by simp [List.chain'_cons, Contig]) (by decide) (by decide)

/-- **C4 counterexample.** The claim says `adv(n)` with
`0 ≤ n ≤ desc_read().len` never panics on any reachable state, explicitly
including the EOF state produced by `at_pos(pos)` with `pos > size`. At that
state `desc_read` reports length 0, so `n = 0` is allowed — but `adv`
unconditionally indexes `runs[cur_run]` with `cur_run = runs.len()` and
panics. -/
theorem adv_eof_counterexample :
    FileDescription.at_pos ⟨[⟨0, 0, 6⟩], 6⟩ 7 = some ⟨7, 1, 0⟩ ∧
    FileDescription.desc_read ⟨[⟨0, 0, 6⟩], 6⟩ ⟨7, 1, 0⟩ = some ⟨7, 0, 0⟩ ∧
    FileDescription.adv ⟨[⟨0, 0, 6⟩], 6⟩ ⟨7, 1, 0⟩ 0 = none :=
  ⟨rfl, rfl, rfl⟩

/-- **C4 amended.** On any non-EOF positioned-reader state (current run index
in bounds, cursor inside the run), `adv(n)` with `n` at most the remaining
length of the current run — which is exactly `desc_read().len` — does not
panic, advances `pos` by `n`, and moves to the next run precisely when `n`
equals the remaining length; `n` beyond the remaining length hits the
`panic!`. At the EOF state (`cur_run = runs.len()`, as produced by
`at_pos(pos)` with `pos > size`) every `adv` call panics on the out-of-bounds
index `runs[cur_run]`, even `adv(0)`. -/
theorem adv_spec (fd : FileDescription) (s : FileDescriptionPos) (n : Nat) :
    (∀ br, fd.runs[s.cur_run]? = some br → s.offset_in_run ≤ br.len →
      (fd.desc_read s = some ⟨s.pos, br.disk_pos + s.offset_in_run, br.len - s.offset_in_run⟩) ∧
      (n ≤ br.len - s.offset_in_run →
        fd.adv s n = some ⟨s.pos + n,
          if n = br.len - s.offset_in_run then s.cur_run + 1 else s.cur_run,
          if n = br.len - s.offset_in_run then 0 else s.offset_in_run + n⟩) ∧
      (br.len - s.offset_in_run < n → fd.adv s n = none)) ∧
    (fd.runs[s.cur_run]? = none → fd.adv s n = none) := by
  constructor
  · intro br hbr _
    refine ⟨?_, ?_, ?_⟩
    · have hlt : s.cur_run < fd.runs.length := by
        by_contra hge
        rw [List.getElem?_eq_none (by omega)] at hbr
        exact absurd hbr (by simp)
      unfold FileDescription.desc_read
      rw [if_neg (by omega), hbr]
    · intro hle
      unfold FileDescription.adv
      simp only [hbr]
      by_cases he : n = br.len - s.offset_in_run
      · subst he
        rw [if_neg (lt_irrefl _), if_pos rfl]
        simp
      · rw [if_pos (by omega)]
        simp [he]
    · intro hgt
      unfold FileDescription.adv
      simp only [hbr]
      rw [if_neg (by omega), if_neg (by omega)]
  · intro hnone
    unfold FileDescription.adv
    rw [hnone]

/-- Witness for `adv_spec`: a mid-run advance, an end-of-run transition and an
over-length panic on a concrete description. -/
theorem adv_spec_witness :
    FileDescription.adv ⟨[⟨0, 0, 6⟩, ⟨6, 10, 6⟩], 12⟩ ⟨2, 0, 2⟩ 3 = some ⟨5, 0, 5⟩ ∧
    FileDescription.adv ⟨[⟨0, 0, 6⟩, ⟨6, 10, 6⟩], 12⟩ ⟨2, 0, 2⟩ 4 = some ⟨6, 1, 0⟩ ∧
    FileDescription.adv ⟨[⟨0, 0, 6⟩, ⟨6, 10, 6⟩], 12⟩ ⟨2, 0, 2⟩ 5 = none := by
  refine ⟨?_, ?_, ?_⟩
  · exact (((adv_spec ⟨[⟨0, 0, 6⟩, ⟨6, 10, 6⟩], 12⟩ ⟨2, 0, 2⟩ 3).1 ⟨0, 0, 6⟩ rfl
      (by decide)).2.1 (by decide))
  · exact (((adv_spec ⟨[⟨0, 0, 6⟩, ⟨6, 10, 6⟩], 12⟩ ⟨2, 0, 2⟩ 4).1 ⟨0, 0, 6⟩ rfl
      (by decide)).2.1 (by decide))
  · exact (((adv_spec ⟨[⟨0, 0, 6⟩, ⟨6, 10, 6⟩], 12⟩ ⟨2, 0, 2⟩ 5).1 ⟨0, 0, 6⟩ rfl
      (by decide)).2.2 (by decide))

/-! ### Arithmetic consequences of `FileDescription.Valid` -/

theorem valid_step {fd : FileDescription} (hv : fd.Valid) :
    ∀ i, (h : i + 1 < fd.runs.length) →
      fd.runs[i + 1].file_offset = fd.runs[i].file_offset + fd.runs[i].len := by
  intro i h
  have := List.chain'_iff_get.mp hv.2.2.1 i (by omega)
  simpa [Contig, List.get_eq_getElem] using this

theorem valid_first {fd : FileDescription} (hv : fd.Valid) (h : 0 < fd.runs.length) :
    fd.runs[0].file_offset = 0 := by
  obtain ⟨x, rest, hx⟩ := List.exists_cons_of_ne_nil hv.1
  have := hv.2.1 x (by simp [hx])
  simp only [hx]
  simpa using this

theorem valid_offset_sum {fd : FileDescription} (hv : fd.Valid) :
    ∀ i, (h : i < fd.runs.length) →
      fd.runs[i].file_offset = ((fd.runs.map ByteRun.len).take i).sum := by
  intro i
  induction i with
  | zero => intro h; simpa using valid_first hv h
  | succ i ih =>
    intro h
    have hi : i < fd.runs.length := by omega
    rw [valid_step hv i h, ih hi]
    rw [List.take_succ]
    simp [List.getElem?_eq_getElem, hi]

theorem valid_end_le_size {fd : FileDescription} (hv : fd.Valid) :
    ∀ i, (h : i < fd.runs.length) →
      fd.runs[i].file_offset + fd.runs[i].len ≤ fd.size := by
  intro i h
  rw [valid_offset_sum hv i h]
  have hle : ((fd.runs.map ByteRun.len).take (i + 1)).sum ≤ (fd.runs.map ByteRun.len).sum := by
    conv_rhs => rw [← List.take_append_drop (i + 1) (fd.runs.map ByteRun.len)]
    rw [List.sum_append]
    omega
  rw [List.take_succ] at hle
  simp only [List.sum_append, List.getElem?_eq_getElem (by simpa using h : i < (fd.runs.map ByteRun.len).length)] at hle
  simp only [List.getElem_map] at hle
  have hsum := hv.2.2.2.2
  simp at hle
  omega

theorem valid_last_end {fd : FileDescription} (hv : fd.Valid)
    (h : fd.runs.length - 1 < fd.runs.length) :
    fd.runs[fd.runs.length - 1].file_offset + fd.runs[fd.runs.length - 1].len = fd.size := by
  have hn : fd.runs.length = (fd.runs.length - 1) + 1 := by
    have : 0 < fd.runs.length := List.length_pos.mpr hv.1
    omega
  rw [valid_offset_sum hv _ h]
  have htake : ((fd.runs.map ByteRun.len).take ((fd.runs.length - 1) + 1)).sum =
      (fd.runs.map ByteRun.len).sum := by
    rw [← hn]
    rw [List.take_of_length_le (by simp)]
  rw [List.take_succ] at htake
  simp only [List.sum_append, List.getElem?_eq_getElem (by simpa using h : fd.runs.length - 1 < (fd.runs.map ByteRun.len).length)] at htake
  simp only [List.getElem_map] at htake
  have hsum := hv.2.2.2.2
  simp at htake
  omega

theorem valid_mono {fd : FileDescription} (hv : fd.Valid) :
    ∀ i j, (hij : i < j) → (hj : j < fd.runs.length) →
      (fd.runs[i]).file_offset +
        (fd.runs[i]).len ≤ fd.runs[j].file_offset := by
  intro i j
  induction j with
  | zero => omega
  | succ j ih =>
    intro hij hj
    rcases Nat.lt_succ_iff_lt_or_eq.mp hij with hlt | heq
    · have hjlen : 0 < fd.runs[j].len := hv.2.2.2.1 _ (List.getElem_mem (by omega))
      have h1 := ih hlt (by omega)
      have h2 := valid_step hv j hj
      omega
    · subst heq
      rw [valid_step hv i hj]

/-! ### Behaviour of the binary search model -/

theorem bsk_found (t : Nat) : ∀ (pre suf : List Nat) (i0 : Nat),
    (∀ k ∈ pre, k < t) →
    binSearchKeys (pre ++ t :: suf) t i0 = .ok (i0 + pre.length) := by
  intro pre
  induction pre with
  | nil => intro suf i0 _; simp [binSearchKeys]
  | cons k pre' ih =>
    intro suf i0 hpre
    have hk : k < t := hpre k (by simp)
    simp only [List.cons_append, binSearchKeys, List.append_eq]
    rw [if_neg (by omega), if_pos hk, ih suf (i0 + 1) (fun y hy => hpre y (by simp [hy]))]
    simp only [List.length_cons]
    congr 1
    omega

theorem bsk_not_found (t : Nat) : ∀ (pre suf : List Nat) (i0 : Nat),
    (∀ k ∈ pre, k < t) →
    (∀ k ∈ suf, t < k) →
    binSearchKeys (pre ++ suf) t i0 = .error (i0 + pre.length) := by
  intro pre
  induction pre with
  | nil =>
    intro suf i0 _ hsuf
    cases suf with
    | nil => simp [binSearchKeys]
    | cons k suf' =>
      have hk : t < k := hsuf k (by simp)
      simp only [List.nil_append, binSearchKeys]
      rw [if_neg (by omega), if_neg (by omega)]
      simp
  | cons k pre' ih =>
    intro suf i0 hpre hsuf
    have hk : k < t := hpre k (by simp)
    simp only [List.cons_append, binSearchKeys, List.append_eq]
    rw [if_neg (by omega), if_pos hk, ih suf (i0 + 1) (fun y hy => hpre y (by simp [hy])) hsuf]
    simp only [List.length_cons]
    congr 1
    omega

theorem keys_getElem (fd : FileDescription) (j : Nat) (hj : j < fd.runs.length)
    (hjm : j < (fd.runs.map ByteRun.file_offset).length) :
    (fd.runs.map ByteRun.file_offset)[j] = fd.runs[j].file_offset :=
  List.getElem_map _

theorem atPos_descRead_aux (fd : FileDescription) (hv : fd.Valid) (p : Nat) :
    (∀ i, (hi : i < fd.runs.length) →
      fd.runs[i].file_offset ≤ p → p < fd.runs[i].file_offset + fd.runs[i].len →
      (∀ j, (hj : j < fd.runs.length) →
        fd.runs[j].file_offset ≤ p → p < fd.runs[j].file_offset + fd.runs[j].len → j = i) ∧
      fd.at_pos p = some ⟨p, i, p - fd.runs[i].file_offset⟩ ∧
      fd.desc_read ⟨p, i, p - fd.runs[i].file_offset⟩ =
        some ⟨p, fd.runs[i].disk_pos + (p - fd.runs[i].file_offset),
              fd.runs[i].file_offset + fd.runs[i].len - p⟩) ∧
    (p = fd.size →
      ∃ last, fd.runs.getLast? = some last ∧
        fd.at_pos p = some ⟨p, fd.runs.length - 1, p - last.file_offset⟩ ∧
        fd.desc_read ⟨p, fd.runs.length - 1, p - last.file_offset⟩ =
          some ⟨p, last.disk_pos + last.len, 0⟩) := by
  have hkeys_len : (fd.runs.map ByteRun.file_offset).length = fd.runs.length := by simp
  constructor
  · intro i hi hle hlt
    have huniq : ∀ j, (hj : j < fd.runs.length) →
        fd.runs[j].file_offset ≤ p → p < fd.runs[j].file_offset + fd.runs[j].len → j = i := by
      intro j hj hjle hjlt
      by_contra hne
      rcases Nat.lt_or_ge j i with hji | hij
      · have := valid_mono hv j i hji hi
        omega
      · have hij' : i < j := by omega
        have := valid_mono hv i j hij' hj
        omega
    refine ⟨huniq, ?_, ?_⟩
    · have hps : p < fd.size := by
        have := valid_end_le_size hv i hi
        omega
      unfold FileDescription.at_pos
      rw [if_neg (by omega)]
      by_cases hpe : fd.runs[i].file_offset = p
      · have hdecomp : fd.runs.map ByteRun.file_offset =
            (fd.runs.map ByteRun.file_offset).take i ++
              p :: (fd.runs.map ByteRun.file_offset).drop (i + 1) := by
          conv_lhs => rw [← List.take_append_drop i (fd.runs.map ByteRun.file_offset)]
          congr 1
          rw [List.drop_eq_getElem_cons (by omega)]
          rw [keys_getElem fd i hi (by simp only [List.length_map]; omega), hpe]
        rw [hdecomp]
        rw [bsk_found p _ _ 0 ?pre]
        case pre =>
          intro k hk
          obtain ⟨j, hjlen, hkj⟩ := List.mem_iff_getElem.mp hk
          have hjlt : j < i := by
            have := hjlen
            simp at this
            omega
          rw [List.getElem_take _, keys_getElem fd j (by omega) (by simp only [List.length_map]; omega)] at hkj
          have := valid_mono hv j i hjlt hi
          have hjr : j < fd.runs.length := by omega
          have hjpos : 0 < (fd.runs[j]).len :=
            hv.2.2.2.1 _ (List.getElem_mem hjr)
          omega
        have hlen : ((fd.runs.map ByteRun.file_offset).take i).length = i := by
          simp
          omega
        rw [hlen]
        simp only [Nat.zero_add, List.getElem?_eq_getElem hi]
      · have hflt : fd.runs[i].file_offset < p := by omega
        have hdecomp : fd.runs.map ByteRun.file_offset =
            (fd.runs.map ByteRun.file_offset).take (i + 1) ++
              (fd.runs.map ByteRun.file_offset).drop (i + 1) :=
          (List.take_append_drop _ _).symm
        rw [hdecomp]
        rw [bsk_not_found p _ _ 0 ?pre ?suf]
        case pre =>
          intro k hk
          obtain ⟨j, hjlen, hkj⟩ := List.mem_iff_getElem.mp hk
          have hjlt : j < i + 1 := by
            have := hjlen
            simp at this
            omega
          rw [List.getElem_take _, keys_getElem fd j (by omega) (by simp only [List.length_map]; omega)] at hkj
          rcases Nat.lt_or_ge j i with hji | hij
          · have := valid_mono hv j i hji hi
            have hjr : j < fd.runs.length := by omega
            have hjpos : 0 < (fd.runs[j]).len :=
              hv.2.2.2.1 _ (List.getElem_mem hjr)
            omega
          · have : j = i := by omega
            subst this
            omega
        case suf =>
          intro k hk
          obtain ⟨j, hjlen, hkj⟩ := List.mem_iff_getElem.mp hk
          have hjlen' : i + 1 + j < fd.runs.length := by
            have := hjlen
            simp at this
            omega
          rw [List.getElem_drop, keys_getElem fd (i + 1 + j) (by omega) (by simp only [List.length_map]; omega)] at hkj
          have := valid_mono hv i (i + 1 + j) (by omega) (by omega)
          omega
        have hlen : ((fd.runs.map ByteRun.file_offset).take (i + 1)).length = i + 1 := by
          simp
          omega
        rw [hlen]
        simp only [Nat.zero_add]
        rw [if_neg (by omega)]
        simp only [Nat.add_sub_cancel, List.getElem?_eq_getElem hi]
    · unfold FileDescription.desc_read
      dsimp only
      rw [if_neg (by omega)]
      simp only [List.getElem?_eq_getElem hi]
      have : fd.runs[i].len - (p - fd.runs[i].file_offset) =
          fd.runs[i].file_offset + fd.runs[i].len - p := by omega
      rw [this]
  · intro hp
    have hn : 0 < fd.runs.length := List.length_pos.mpr hv.1
    have hn1 : fd.runs.length - 1 < fd.runs.length := by omega
    have hlast := valid_last_end hv hn1
    have hlpos : 0 < fd.runs[fd.runs.length - 1].len :=
      hv.2.2.2.1 _ (List.getElem_mem hn1)
    refine ⟨fd.runs[fd.runs.length - 1], ?_, ?_, ?_⟩
    · rw [List.getLast?_eq_getElem?]
      exact List.getElem?_eq_getElem hn1
    · unfold FileDescription.at_pos
      rw [if_neg (by omega)]
      have hdecomp : fd.runs.map ByteRun.file_offset =
          fd.runs.map ByteRun.file_offset ++ [] := by simp
      rw [hdecomp]
      rw [bsk_not_found p _ _ 0 ?pre (by simp)]
      case pre =>
        intro k hk
        obtain ⟨j, hjlen, hkj⟩ := List.mem_iff_getElem.mp hk
        have hjlen' : j < fd.runs.length := by
          have := hjlen
          simp at this
          omega
        rw [keys_getElem fd j hjlen' (by simp only [List.length_map]; omega)] at hkj
        rcases Nat.lt_or_ge j (fd.runs.length - 1) with hji | hij
        · have := valid_mono hv j (fd.runs.length - 1) hji hn1
          have hjr : j < fd.runs.length := by omega
          have hjpos : 0 < (fd.runs[j]).len :=
            hv.2.2.2.1 _ (List.getElem_mem hjr)
          omega
        · have : j = fd.runs.length - 1 := by omega
          subst this
          omega
      rw [hkeys_len]
      simp only [Nat.zero_add]
      rw [if_neg (by omega)]
      simp only [List.getElem?_eq_getElem hn1]
    · unfold FileDescription.desc_read
      dsimp only
      rw [if_neg (by omega)]
      simp only [List.getElem?_eq_getElem hn1]
      have h1 : p - fd.runs[fd.runs.length - 1].file_offset =
          fd.runs[fd.runs.length - 1].len := by omega
      rw [h1]
      simp

/-- **C7.** For a valid description and any `p ∈ [0, size]`:
`at_pos(p)` succeeds (no panic) and `desc_read` then reports the byte-run
`⟨p, rᵢ.disk_pos + (p − rᵢ.file_offset), rᵢ.file_offset + rᵢ.len − p⟩`, where
`rᵢ` is the unique run containing `p` (for `p < size`; found by binary search
over `file_offset`), and for `p = size` the zero-length tail of the last
run. -/
theorem at_pos_desc_read_spec (fd : FileDescription) (hv : fd.Valid) (p : Nat) :
    (∀ i, (hi : i < fd.runs.length) →
      fd.runs[i].file_offset ≤ p → p < fd.runs[i].file_offset + fd.runs[i].len →
      (∀ j, (hj : j < fd.runs.length) →
        fd.runs[j].file_offset ≤ p → p < fd.runs[j].file_offset + fd.runs[j].len → j = i) ∧
      fd.at_pos p = some ⟨p, i, p - fd.runs[i].file_offset⟩ ∧
      fd.desc_read ⟨p, i, p - fd.runs[i].file_offset⟩ =
        some ⟨p, fd.runs[i].disk_pos + (p - fd.runs[i].file_offset),
              fd.runs[i].file_offset + fd.runs[i].len - p⟩) ∧
    (p = fd.size →
      ∃ last, fd.runs.getLast? = some last ∧
        fd.at_pos p = some ⟨p, fd.runs.length - 1, p - last.file_offset⟩ ∧
        fd.desc_read ⟨p, fd.runs.length - 1, p - last.file_offset⟩ =
          some ⟨p, last.disk_pos + last.len, 0⟩) :=
  atPos_descRead_aux fd hv p

/-- Witness for `at_pos_desc_read_spec`: the scenario description, probed in
the middle of the second run and at `p = size`. -/
theorem at_pos_desc_read_spec_witness :
    FileDescription.at_pos ⟨[⟨0, 16000, 50⟩, ⟨50, 8000, 50⟩, ⟨100, 2000, 23⟩], 123⟩ 70 =
      some ⟨70, 1, 20⟩ ∧
    FileDescription.desc_read ⟨[⟨0, 16000, 50⟩, ⟨50, 8000, 50⟩, ⟨100, 2000, 23⟩], 123⟩ ⟨70, 1, 20⟩ =
      some ⟨70, 8020, 30⟩ ∧
    FileDescription.at_pos ⟨[⟨0, 16000, 50⟩, ⟨50, 8000, 50⟩, ⟨100, 2000, 23⟩], 123⟩ 123 =
      some ⟨123, 2, 23⟩ := by
  have hv : FileDescription.Valid ⟨[⟨0, 16000, 50⟩, ⟨50, 8000, 50⟩, ⟨100, 2000, 23⟩], 123⟩ := by
    refine ⟨by decide, by decide, ?_, by decide, by decide⟩
    simp [List.chain'_cons, Contig]
  have h := at_pos_desc_read_spec ⟨[⟨0, 16000, 50⟩, ⟨50, 8000, 50⟩, ⟨100, 2000, 23⟩], 123⟩ hv
  have h1 := (h 70).1 1 (by decide) (by decide) (by decide)
  have h2 := ((h 123).2 rfl)
  obtain ⟨last, hlast, hpos, hread⟩ := h2
  refine ⟨h1.2.1, h1.2.2, ?_⟩
  have : last = ⟨100, 2000, 23⟩ := by
    simpa using hlast.symm
  rw [this] at hpos
  simpa using hpos

/-! ### The read loop of `ByteRunsReader` -/

theorem tailContent_in_run (fd : FileDescription) (f : Nat → Nat)
    (s : FileDescriptionPos) (r : ByteRun) (hbr : fd.runs[s.cur_run]? = some r) :
    tailContent fd f s =
      ((List.range (r.len - s.offset_in_run)).map
        fun j => f (r.disk_pos + s.offset_in_run + j)) ++
      (fd.runs.drop (s.cur_run + 1)).flatMap (runBytes f) := by
  unfold tailContent
  rw [hbr]

theorem flatMap_drop_cons (fd : FileDescription) (f : Nat → Nat) (c : Nat)
    (hc : c < fd.runs.length) :
    (fd.runs.drop c).flatMap (runBytes f) =
      runBytes f fd.runs[c] ++ (fd.runs.drop (c + 1)).flatMap (runBytes f) := by
  rw [List.drop_eq_getElem_cons hc, List.flatMap_cons]

theorem readAll_tail (fd : FileDescription) (hv : fd.Valid) (f : Nat → Nat)
    (B C : Nat → Nat) :
    ∀ fuel i s, GoodState fd s → fd.size - s.pos < fuel →
      readAll fd f B C fuel i s = some (tailContent fd f s) := by
  intro fuel
  induction fuel with
  | zero => intro i s _ hf; omega
  | succ fuel ih =>
    intro i s hgood hf
    rcases hgood with ⟨hc, hpos⟩ | ⟨hc, hoff, hpos⟩
    · -- EOF state: desc_read length 0, the loop stops with [].
      have hnone : fd.runs[s.cur_run]? = none := List.getElem?_eq_none (by omega)
      have hdr : fd.desc_read s = some ⟨s.pos, 0, 0⟩ := by
        unfold FileDescription.desc_read
        rw [if_pos hc]
      simp only [readAll, readOnce, hdr]
      simp [tailContent, hnone]
    · -- in-run state
      obtain ⟨r, hrr⟩ : ∃ r, fd.runs[s.cur_run] = r := ⟨_, rfl⟩
      have hbr : fd.runs[s.cur_run]? = some r := by
        rw [List.getElem?_eq_getElem hc, hrr]
      rw [hrr] at hoff hpos
      have hlenpos : 0 < r.len := by omega
      have hdr : fd.desc_read s =
          some ⟨s.pos, r.disk_pos + s.offset_in_run, r.len - s.offset_in_run⟩ := by
        unfold FileDescription.desc_read
        rw [if_neg (by omega), hbr]
      have hsize : r.file_offset + r.len ≤ fd.size := by
        rw [← hrr]; exact valid_end_le_size hv _ hc
      simp only [readAll, readOnce, hdr]
      rw [if_neg (by omega)]
      generalize hK : max 1 (min (C i) (min (B i + 1) (r.len - s.offset_in_run))) = k
      have hk1 : 1 ≤ k := by omega
      have hkrem : k ≤ r.len - s.offset_in_run := by omega
      obtain ⟨b, bs, hb⟩ : ∃ b bs,
          (List.range k).map (fun j => f (r.disk_pos + s.offset_in_run + j)) = b :: bs := by
        cases hcase : (List.range k).map (fun j => f (r.disk_pos + s.offset_in_run + j)) with
        | nil =>
          exfalso
          have := congrArg List.length hcase
          simp at this
          omega
        | cons b bs => exact ⟨b, bs, rfl⟩
      by_cases hke : k = r.len - s.offset_in_run
      · -- transition to the next run
        have hadv : fd.adv s k =
            some ⟨s.pos + (r.len - s.offset_in_run), s.cur_run + 1, 0⟩ := by
          unfold FileDescription.adv
          rw [hbr]
          dsimp only
          rw [if_neg (by omega), if_pos hke]
        rw [hadv, hb]
        dsimp only
        have hgood' : GoodState fd ⟨s.pos + (r.len - s.offset_in_run), s.cur_run + 1, 0⟩ := by
          unfold GoodState
          dsimp only
          rcases Nat.lt_or_ge (s.cur_run + 1) fd.runs.length with hlt | hge
          · right
            refine ⟨hlt, hv.2.2.2.1 _ (List.getElem_mem hlt), ?_⟩
            have hstep := valid_step hv s.cur_run hlt
            rw [hrr] at hstep
            omega
          · left
            have hceq : s.cur_run + 1 = fd.runs.length := by omega
            have hlast := valid_last_end hv (by omega)
            have hidx : fd.runs.length - 1 = s.cur_run := by omega
            simp only [hidx, hrr] at hlast
            exact ⟨hceq, by omega⟩
        have hrec := ih (i + 1) _ hgood' (by dsimp only; omega)
        rw [hrec]
        dsimp only
        have htail' : tailContent fd f ⟨s.pos + (r.len - s.offset_in_run), s.cur_run + 1, 0⟩ =
            (fd.runs.drop (s.cur_run + 1)).flatMap (runBytes f) := by
          rcases Nat.lt_or_ge (s.cur_run + 1) fd.runs.length with hlt | hge
          · rw [tailContent_in_run fd f _ (fd.runs[s.cur_run + 1])
              (by dsimp only; exact List.getElem?_eq_getElem hlt)]
            dsimp only
            rw [flatMap_drop_cons fd f _ hlt]
            simp [runBytes]
          · unfold tailContent
            dsimp only
            rw [List.getElem?_eq_none (by omega)]
            simp [List.drop_eq_nil_of_le (show fd.runs.length ≤ s.cur_run + 1 by omega)]
        rw [htail']
        rw [tailContent_in_run fd f s r hbr]
        rw [← hb, hke]
      · -- stay inside the current run
        have hklt : k < r.len - s.offset_in_run := by omega
        have hadv : fd.adv s k = some ⟨s.pos + k, s.cur_run, s.offset_in_run + k⟩ := by
          unfold FileDescription.adv
          rw [hbr]
          dsimp only
          rw [if_pos (by omega)]
        rw [hadv, hb]
        dsimp only
        have hgood' : GoodState fd ⟨s.pos + k, s.cur_run, s.offset_in_run + k⟩ := by
          unfold GoodState
          dsimp only
          right
          refine ⟨hc, ?_, ?_⟩ <;> rw [hrr] <;> omega
        have hrec := ih (i + 1) _ hgood' (by dsimp only; omega)
        rw [hrec]
        dsimp only
        have hbr' : fd.runs[(⟨s.pos + k, s.cur_run, s.offset_in_run + k⟩ : FileDescriptionPos).cur_run]? = some r := hbr
        rw [tailContent_in_run fd f _ r hbr']
        rw [tailContent_in_run fd f s r hbr]
        dsimp only
        rw [← hb]
        rw [← List.append_assoc]
        have hdecomp : r.len - s.offset_in_run = k + (r.len - (s.offset_in_run + k)) := by
          omega
        rw [hdecomp, List.range_add, List.map_append, List.map_map]
        have hBC : List.map
              ((fun j => f (r.disk_pos + s.offset_in_run + j)) ∘ fun x => k + x)
              (List.range (r.len - (s.offset_in_run + k))) =
            List.map (fun j => f (r.disk_pos + (s.offset_in_run + k) + j))
              (List.range (r.len - (s.offset_in_run + k))) := by
          apply List.map_congr_left
          intro j _
          simp only [Function.comp_apply]
          congr 1
          omega
        rw [hBC]

/-- **C8.** Read round-trip: over any disk source that is a pure function of
the disk position (in particular the identity source) and any pattern of
positive per-call buffer sizes (`B i + 1`) and arbitrary short-read choices
(`C i`), iterating `ByteRunsReader::read` from position 0 until it returns 0
terminates within `size + 1` calls and yields exactly the concatenation of
the description's disk segments in file-offset order. Each call reads
`k ∈ [1, min(|buf|, describe().len)]` bytes at `describe().disk_pos` and
advances the positioned reader by the actually-read count `k`. -/
theorem read_roundtrip (fd : FileDescription) (hv : fd.Valid) (f : Nat → Nat)
    (B C : Nat → Nat) :
    fd.at_pos 0 = some ⟨0, 0, 0⟩ ∧
    readAll fd f B C (fd.size + 1) 0 ⟨0, 0, 0⟩ = some (diskContent fd f) := by
  have hn : 0 < fd.runs.length := List.length_pos.mpr hv.1
  have h0 : fd.runs[0].file_offset = 0 := valid_first hv hn
  have hlen0 : 0 < fd.runs[0].len := hv.2.2.2.1 _ (List.getElem_mem hn)
  constructor
  · have h := ((atPos_descRead_aux fd hv 0).1 0 hn (by omega) (by omega)).2.1
    simpa [h0] using h
  · have hgood : GoodState fd (⟨0, 0, 0⟩ : FileDescriptionPos) := by
      unfold GoodState
      dsimp only
      right
      exact ⟨hn, hlen0, by omega⟩
    rw [readAll_tail fd hv f B C (fd.size + 1) 0 _ hgood (by dsimp only; omega)]
    congr 1
    rw [tailContent_in_run fd f _ (fd.runs[0])
      (by dsimp only; exact List.getElem?_eq_getElem hn)]
    dsimp only
    unfold diskContent
    conv_rhs => rw [← List.drop_zero fd.runs]
    rw [flatMap_drop_cons fd f 0 hn]
    simp [runBytes]

/-- Witness for `read_roundtrip`: the S3/S4 scenario description with the
identity disk source and 3-byte short reads. -/
theorem read_roundtrip_witness :
    readAll ⟨[⟨0, 0, 6⟩, ⟨6, 10, 6⟩, ⟨12, 20, 6⟩], 18⟩ id (fun _ => 30) (fun _ => 3) 19 0 ⟨0, 0, 0⟩ =
      some (diskContent ⟨[⟨0, 0, 6⟩, ⟨6, 10, 6⟩, ⟨12, 20, 6⟩], 18⟩ id) := by
  have hv : FileDescription.Valid ⟨[⟨0, 0, 6⟩, ⟨6, 10, 6⟩, ⟨12, 20, 6⟩], 18⟩ := by
    refine ⟨by decide, by decide, ?_, by decide, by decide⟩
    simp [List.chain'_cons, Contig]
  exact (read_roundtrip ⟨[⟨0, 0, 6⟩, ⟨6, 10, 6⟩, ⟨12, 20, 6⟩], 18⟩ hv id
    (fun _ => 30) (fun _ => 3)).2

/-! ### The segment-tree classification hole -/

/-- **C1.** The claim says every segment strictly overlapping a stored segment
is reported as `Intersect`. But a query strictly inside a stored segment that
shares neither endpoint with it contributes no anchor to the examined range
`[start, end]`, so `get_segment` classifies it as absent: after inserting
`[1,5)`, `get_segment([2,4))` returns `Ok(None)` (`missing`), not
`Err(Intersect)` — contradicting the doc comment of `entry_segment`
("if the tree doesn't contain any intersection with the segment"). -/
theorem get_segment_interior_overlap_missed :
    SegmentTree.insert_segment ([] : STree Nat) ⟨1, 5⟩ 0 =
      .ok none [(1, .start), (5, .endv 0)] ∧
    SegmentTree.get_segment [((1 : Nat), SegmentValue.start), (5, SegmentValue.endv 0)] ⟨2, 4⟩ =
      .missing :=
  ⟨rfl, rfl⟩

/-- **C2.** The claim says states with partially intersecting stored segments
are unreachable through successful operations. They are reachable: inserting
`[1,5)` and then `[2,4)` both succeed (`Ok(None)`), because the second insert
is misclassified as vacant (see `get_segment_interior_overlap_missed`), and
`[2,4)` strictly overlaps `[1,5)` without touching. -/
theorem insert_segment_disjointness_violated :
    SegmentTree.insert_segment ([] : STree Nat) ⟨1, 5⟩ 0 =
      .ok none [(1, .start), (5, .endv 0)] ∧
    SegmentTree.insert_segment [((1 : Nat), SegmentValue.start), (5, SegmentValue.endv 0)] ⟨2, 4⟩ 1 =
      .ok none [(1, .start), (2, .start), (4, .endv 1), (5, .endv 0)] ∧
    (1 : Nat) < 2 ∧ 2 < 5 ∧ 4 ≤ 5 ∧ ¬((4 : Nat) ≤ 1 ∨ 5 ≤ 2) :=
  ⟨rfl, rfl, by decide, by decide, by decide, by decide⟩

/-! ### The canonical anchor encoding of a set of stored segments -/

theorem encodeRest_key_ge (e : Nat) (v : V) : ∀ (rest : List (Nat × Nat × V)),
    (∀ x ∈ rest, e ≤ x.1) → (∀ x ∈ rest, x.1 < x.2.1) →
    rest.Pairwise (fun a b => a.2.1 ≤ b.1) →
    ∀ p ∈ encodeRest e v rest, e ≤ p.1 := by
  intro rest
  induction rest generalizing e v with
  | nil =>
    intro _ _ _ p hp
    simp [encodeRest] at hp
    subst hp
    simp
  | cons y r ih =>
    obtain ⟨s', e', v'⟩ := y
    intro hle hval hpair p hp
    have hs'e' : s' < e' := hval (s', e', v') (by simp)
    have hs' : e ≤ s' := hle (s', e', v') (by simp)
    have hrle : ∀ x ∈ r, e' ≤ x.1 := by
      intro x hx
      exact (List.pairwise_cons.mp hpair).1 x hx
    have hrec := ih e' v' hrle (fun x hx => hval x (by simp [hx]))
      (List.pairwise_cons.mp hpair).2
    unfold encodeRest at hp
    split at hp
    · rcases List.mem_cons.mp hp with h | h
      · subst h; simp
      · have := hrec p h; omega
    · rcases List.mem_cons.mp hp with h | h
      · subst h; simp
      · rcases List.mem_cons.mp h with h' | h'
        · subst h'; simpa using hs'
        · have := hrec p h'; omega

theorem encodeRest_ne_nil (e : Nat) (v : V) (rest : List (Nat × Nat × V)) :
    ∃ a tl, encodeRest e v rest = (e, a) :: tl := by
  cases rest with
  | nil => exact ⟨.endv v, [], rfl⟩
  | cons y r =>
    obtain ⟨s', e', v'⟩ := y
    unfold encodeRest
    by_cases h : s' = e
    · rw [if_pos h]; exact ⟨_, _, rfl⟩
    · rw [if_neg h]; exact ⟨_, _, rfl⟩

theorem encodeRest_sorted (e : Nat) (v : V) : ∀ (rest : List (Nat × Nat × V)),
    (∀ x ∈ rest, e ≤ x.1) → (∀ x ∈ rest, x.1 < x.2.1) →
    rest.Pairwise (fun a b => a.2.1 ≤ b.1) →
    List.Chain' (keyLt (V := V)) (encodeRest e v rest) := by
  intro rest
  induction rest generalizing e v with
  | nil => intro _ _ _; simp [encodeRest]
  | cons y r ih =>
    obtain ⟨s', e', v'⟩ := y
    intro hle hval hpair
    have hs'e' : s' < e' := hval (s', e', v') (by simp)
    have hs' : e ≤ s' := hle (s', e', v') (by simp)
    have hrle : ∀ x ∈ r, e' ≤ x.1 := fun x hx => (List.pairwise_cons.mp hpair).1 x hx
    have hrec := ih e' v' hrle (fun x hx => hval x (by simp [hx]))
      (List.pairwise_cons.mp hpair).2
    obtain ⟨a, tl, htl⟩ := encodeRest_ne_nil e' v' r
    unfold encodeRest
    split
    · rename_i hse
      rw [htl]
      rw [htl] at hrec
      exact List.chain'_cons.mpr ⟨by simp [keyLt]; omega, hrec⟩
    · rename_i hse
      rw [htl]
      rw [htl] at hrec
      refine List.chain'_cons.mpr ⟨by simp [keyLt]; omega, ?_⟩
      exact List.chain'_cons.mpr ⟨by simp [keyLt]; omega, hrec⟩

theorem encode_sorted : ∀ (segs : List (Nat × Nat × V)), SegsWF segs →
    List.Chain' (keyLt (V := V)) (encode segs) := by
  intro segs hwf
  cases segs with
  | nil => simp [encode]
  | cons y rest =>
    obtain ⟨s, e, v⟩ := y
    have hse : s < e := hwf.1 (s, e, v) (by simp)
    have hle : ∀ x ∈ rest, e ≤ x.1 := fun x hx =>
      (List.pairwise_cons.mp hwf.2).1 x hx
    have hsorted := encodeRest_sorted e v rest hle
      (fun x hx => hwf.1 x (by simp [hx])) (List.pairwise_cons.mp hwf.2).2
    obtain ⟨a, tl, htl⟩ := encodeRest_ne_nil e v rest
    show List.Chain' keyLt ((s, SegmentValue.start) :: encodeRest e v rest)
    rw [htl]
    rw [htl] at hsorted
    exact List.chain'_cons.mpr ⟨by simp [keyLt]; omega, hsorted⟩

theorem encode_pairwise (segs : List (Nat × Nat × V)) (hwf : SegsWF segs) :
    (encode segs).Pairwise (keyLt (V := V)) :=
  List.chain'_iff_pairwise.mp (encode_sorted segs hwf)

theorem encode_key_ge : ∀ (segs : List (Nat × Nat × V)), SegsWF segs →
    ∀ s e v rest, segs = (s, e, v) :: rest →
    ∀ p ∈ encode segs, s ≤ p.1 := by
  intro segs hwf s e v rest hsegs p hp
  subst hsegs
  unfold encode at hp
  rcases List.mem_cons.mp hp with h | h
  · subst h; simp
  · have hse : s < e := hwf.1 (s, e, v) (by simp)
    have := encodeRest_key_ge e v rest
      (fun x hx => (List.pairwise_cons.mp hwf.2).1 x hx)
      (fun x hx => hwf.1 x (by simp [hx]))
      (List.pairwise_cons.mp hwf.2).2 p h
    omega

theorem startsAt_cons (y : Nat × Nat × V) (segs : List (Nat × Nat × V)) (k : Nat) :
    startsAt (y :: segs) k ↔ y.1 = k ∨ startsAt segs k := by
  simp [startsAt]

theorem endsAt_cons (y : Nat × Nat × V) (segs : List (Nat × Nat × V)) (k : Nat) (w : V) :
    endsAt (y :: segs) k w ↔ (y.2.1 = k ∧ y.2.2 = w) ∨ endsAt segs k w := by
  simp [endsAt]

theorem encode_key_ge' (c : Nat) : ∀ (segs : List (Nat × Nat × V)), SegsWF segs →
    (∀ x ∈ segs, c ≤ x.1) → ∀ p ∈ encode segs, c ≤ p.1 := by
  intro segs hwf hlow p hp
  cases segs with
  | nil => simp [encode] at hp
  | cons y rest =>
    obtain ⟨s, e, v⟩ := y
    have hse : s < e := hwf.1 (s, e, v) (by simp)
    have hc : c ≤ s := hlow (s, e, v) (by simp)
    rcases List.mem_cons.mp hp with h | h
    · subst h; simpa using hc
    · have := encodeRest_key_ge e v rest
        (fun x hx => (List.pairwise_cons.mp hwf.2).1 x hx)
        (fun x hx => hwf.1 x (by simp [hx]))
        (List.pairwise_cons.mp hwf.2).2 p h
      omega

theorem encodeRest_mem (e₀ : Nat) (v₀ : V) (rest : List (Nat × Nat × V))
    (hle : ∀ x ∈ rest, e₀ ≤ x.1) (hval : ∀ x ∈ rest, x.1 < x.2.1)
    (hpair : rest.Pairwise (fun a b => a.2.1 ≤ b.1)) (k : Nat) (a : SegmentValue V) :
    (k, a) ∈ encodeRest e₀ v₀ rest ↔
      (k = e₀ ∧ ((startsAt rest e₀ ∧ a = .endStart v₀) ∨
                 (¬ startsAt rest e₀ ∧ a = .endv v₀))) ∨
      ((k, a) ∈ encode rest ∧ k ≠ e₀) := by
  cases rest with
  | nil =>
    simp only [encodeRest, encode, startsAt]
    simp [Prod.ext_iff]
  | cons y r =>
    obtain ⟨s', e', v'⟩ := y
    have hs'e' : s' < e' := hval (s', e', v') (by simp)
    have hs' : e₀ ≤ s' := hle (s', e', v') (by simp)
    have hrle : ∀ x ∈ r, e' ≤ x.1 := fun x hx => (List.pairwise_cons.mp hpair).1 x hx
    have hbound : ∀ p ∈ encodeRest e' v' r, e' ≤ p.1 :=
      encodeRest_key_ge e' v' r hrle (fun x hx => hval x (by simp [hx]))
        (List.pairwise_cons.mp hpair).2
    have hstarts : startsAt ((s', e', v') :: r) e₀ ↔ s' = e₀ := by
      rw [startsAt_cons]
      constructor
      · rintro (h | ⟨x, hx, hxk⟩)
        · exact h
        · exfalso
          have := hrle x hx
          omega
      · exact Or.inl
    by_cases hse : s' = e₀
    · have hexp : encodeRest e₀ v₀ ((s', e', v') :: r) =
          (e₀, SegmentValue.endStart v₀) :: encodeRest e' v' r := by
        simp only [encodeRest]
        rw [if_pos hse]
      rw [hexp, List.mem_cons]
      constructor
      · rintro (h | h)
        · left
          refine ⟨by simpa using congrArg Prod.fst h, Or.inl ⟨hstarts.mpr hse, ?_⟩⟩
          simpa using congrArg Prod.snd h
        · right
          constructor
          · show (k, a) ∈ (s', SegmentValue.start) :: encodeRest e' v' r
            exact List.mem_cons_of_mem _ h
          · have := hbound _ h
            dsimp at this
            omega
      · rintro (⟨hk, h | h⟩ | ⟨h, hk⟩)
        · left; rw [hk, h.2]
        · exact absurd (hstarts.mpr hse) h.1
        · rcases List.mem_cons.mp h with h' | h'
          · exfalso
            have : k = s' := by simpa using congrArg Prod.fst h'
            omega
          · exact Or.inr h'
    · have hne : ¬ startsAt ((s', e', v') :: r) e₀ := fun hc => hse (hstarts.mp hc)
      have hexp : encodeRest e₀ v₀ ((s', e', v') :: r) =
          (e₀, SegmentValue.endv v₀) :: (s', SegmentValue.start) :: encodeRest e' v' r := by
        simp only [encodeRest]
        rw [if_neg hse]
      rw [hexp, List.mem_cons]
      have hs'gt : e₀ < s' := by omega
      constructor
      · rintro (h | h)
        · left
          refine ⟨by simpa using congrArg Prod.fst h, Or.inr ⟨hne, ?_⟩⟩
          simpa using congrArg Prod.snd h
        · right
          refine ⟨h, ?_⟩
          rcases List.mem_cons.mp h with h' | h'
          · have : k = s' := by simpa using congrArg Prod.fst h'
            omega
          · have := hbound _ h'
            dsimp at this
            omega
      · rintro (⟨hk, h | h⟩ | ⟨h, hk⟩)
        · exact absurd h.1 hne
        · left; rw [hk, h.2]
        · exact Or.inr h

theorem encode_mem : ∀ (segs : List (Nat × Nat × V)), SegsWF segs →
    ∀ (k : Nat) (a : SegmentValue V),
    ((k, a) ∈ encode segs) ↔
      (a = .start ∧ startsAt segs k ∧ ∀ w, ¬ endsAt segs k w) ∨
      (∃ w, a = .endv w ∧ endsAt segs k w ∧ ¬ startsAt segs k) ∨
      (∃ w, a = .endStart w ∧ endsAt segs k w ∧ startsAt segs k) := by
  intro segs
  induction segs with
  | nil => intro _ k a; simp [encode, startsAt, endsAt]
  | cons y rest ih =>
    obtain ⟨s, e, v⟩ := y
    intro hwf k a
    have hse : s < e := hwf.1 (s, e, v) (by simp)
    have hrestKey : ∀ x ∈ rest, e ≤ x.1 := fun x hx => (List.pairwise_cons.mp hwf.2).1 x hx
    have hval' : ∀ x ∈ rest, x.1 < x.2.1 := fun x hx => hwf.1 x (by simp [hx])
    have hpair' := (List.pairwise_cons.mp hwf.2).2
    have hwfrest : SegsWF rest := ⟨hval', hpair'⟩
    have hEndsRest_gt : ∀ k' w, endsAt rest k' w → e < k' := by
      rintro k' w ⟨x, hx, hxe, _⟩
      have h1 := hrestKey x hx
      have h2 := hval' x hx
      omega
    have hStartsRest_ge : ∀ k', startsAt rest k' → e ≤ k' := by
      rintro k' ⟨x, hx, hxs⟩
      have := hrestKey x hx
      omega
    have hexp : encode ((s, e, v) :: rest) =
        (s, SegmentValue.start) :: encodeRest e v rest := rfl
    rw [hexp, List.mem_cons,
      encodeRest_mem e v rest hrestKey hval' hpair' k a, ih hwfrest k a]
    simp only [startsAt_cons, endsAt_cons, Prod.mk.injEq]
    constructor
    · rintro (⟨hk, ha⟩ | ⟨hk, ⟨hst, ha⟩ | ⟨hst, ha⟩⟩ |
        ⟨⟨ha, hst, hnd⟩ | ⟨w, ha, hed, hst⟩ | ⟨w, ha, hed, hst⟩, hek⟩)
      · subst hk; subst ha
        refine Or.inl ⟨rfl, Or.inl rfl, ?_⟩
        rintro w (⟨he, _⟩ | hed)
        · omega
        · have := hEndsRest_gt _ _ hed; omega
      · subst hk; subst ha
        exact Or.inr (Or.inr ⟨v, rfl, Or.inl ⟨rfl, rfl⟩, Or.inr hst⟩)
      · subst hk; subst ha
        refine Or.inr (Or.inl ⟨v, rfl, Or.inl ⟨rfl, rfl⟩, ?_⟩)
        rintro (hsk | hsk)
        · omega
        · exact hst hsk
      · subst ha
        have hgt : e ≤ k := hStartsRest_ge _ hst
        refine Or.inl ⟨rfl, Or.inr hst, ?_⟩
        rintro w (⟨he, _⟩ | hed)
        · omega
        · exact hnd w hed
      · subst ha
        refine Or.inr (Or.inl ⟨w, rfl, Or.inr hed, ?_⟩)
        have := hEndsRest_gt _ _ hed
        rintro (hsk | hsk)
        · omega
        · exact hst hsk
      · subst ha
        exact Or.inr (Or.inr ⟨w, rfl, Or.inr hed, Or.inr hst⟩)
    · rintro (⟨ha, hst | hst, hnd⟩ | ⟨w, ha, ⟨hek, hvw⟩ | hed, hst⟩ |
        ⟨w, ha, ⟨hek, hvw⟩ | hed, hst⟩)
      · exact Or.inl ⟨hst.symm, ha⟩
      · have hge : e ≤ k := hStartsRest_ge _ hst
        by_cases hke : k = e
        · exfalso
          exact hnd v (Or.inl ⟨by omega, rfl⟩)
        · refine Or.inr (Or.inr ⟨Or.inl ⟨ha, hst, ?_⟩, hke⟩)
          intro w hw
          exact hnd w (Or.inr hw)
      · subst hek; subst hvw
        refine Or.inr (Or.inl ⟨rfl, Or.inr ⟨?_, ha⟩⟩)
        intro hc
        exact hst (Or.inr hc)
      · have hgt := hEndsRest_gt _ _ hed
        refine Or.inr (Or.inr ⟨Or.inr (Or.inl ⟨w, ha, hed, fun hc => hst (Or.inr hc)⟩), by omega⟩)
      · subst hek; subst hvw
        rcases hst with hsk | hsk
        · omega
        · exact Or.inr (Or.inl ⟨rfl, Or.inl ⟨hsk, ha⟩⟩)
      · have hgt := hEndsRest_gt _ _ hed
        rcases hst with hsk | hsk
        · omega
        · exact Or.inr (Or.inr ⟨Or.inr (Or.inr ⟨w, ha, hed, hsk⟩), by omega⟩)

theorem pairwise_keyLt_nodup (l : List (Nat × SegmentValue V))
    (h : l.Pairwise keyLt) : l.Nodup :=
  h.imp fun hlt => by
    intro he
    rw [he] at hlt
    exact absurd hlt (Nat.lt_irrefl _)

theorem sorted_mem_ext (l₁ l₂ : List (Nat × SegmentValue V))
    (h₁ : l₁.Pairwise keyLt) (h₂ : l₂.Pairwise keyLt)
    (hmem : ∀ p, p ∈ l₁ ↔ p ∈ l₂) : l₁ = l₂ :=
  List.eq_of_perm_of_sorted
    ((List.perm_ext_iff_of_nodup (pairwise_keyLt_nodup l₁ h₁)
      (pairwise_keyLt_nodup l₂ h₂)).mpr hmem) h₁ h₂

theorem treeFind_some_iff : ∀ (t : STree V), t.Pairwise keyLt → ∀ (k : Nat) (x : SegmentValue V),
    (treeFind t k = some x ↔ (k, x) ∈ t) := by
  intro t
  induction t with
  | nil => intro _ k x; simp [treeFind]
  | cons q rest ih =>
    obtain ⟨k₀, x₀⟩ := q
    intro ht k x
    have hrest : ∀ p ∈ rest, k₀ < p.1 := fun p hp => (List.pairwise_cons.mp ht).1 p hp
    by_cases hk : k₀ = k
    · subst hk
      unfold treeFind
      rw [List.find?_cons_of_pos _ (by simp)]
      simp only [Option.map_some, List.mem_cons]
      constructor
      · rintro h
        exact Or.inl (by simpa using h.symm)
      · rintro (h | h)
        · simp [Prod.ext_iff] at h
          simp [h]
        · exact absurd (hrest _ h) (by simp)
    · unfold treeFind
      rw [List.find?_cons_of_neg _ (by simp [hk])]
      rw [show (List.find? (fun p => decide (p.1 = k)) rest).map Prod.snd = treeFind rest k from rfl]
      rw [ih (List.pairwise_cons.mp ht).2 k x, List.mem_cons]
      constructor
      · exact Or.inr
      · rintro (h | h)
        · exfalso
          have : k = k₀ := by simpa using congrArg Prod.fst h
          omega
        · exact h

theorem treeFind_none_iff (t : STree V) (ht : t.Pairwise keyLt) (k : Nat) :
    (treeFind t k = none ↔ ∀ x, (k, x) ∉ t) := by
  constructor
  · intro hn x hx
    rw [← treeFind_some_iff t ht k x] at hx
    rw [hn] at hx
    exact absurd hx (by simp)
  · intro hall
    cases hf : treeFind t k with
    | none => rfl
    | some x =>
      exact absurd ((treeFind_some_iff t ht k x).mp hf) (hall x)

theorem treeInsert_mem : ∀ (t : STree V), t.Pairwise keyLt →
    ∀ (k : Nat) (a : SegmentValue V) (q : Nat × SegmentValue V),
    (q ∈ treeInsert k a t ↔ q = (k, a) ∨ (q ∈ t ∧ q.1 ≠ k)) := by
  intro t
  induction t with
  | nil => intro _ k a q; simp [treeInsert]
  | cons p rest ih =>
    obtain ⟨k₀, x₀⟩ := p
    intro ht k a q
    have hrest : ∀ p ∈ rest, k₀ < p.1 := fun p hp => (List.pairwise_cons.mp ht).1 p hp
    unfold treeInsert
    by_cases h1 : k < k₀
    · rw [if_pos h1]
      simp only [List.mem_cons]
      constructor
      · rintro (h | h | h)
        · exact Or.inl h
        · refine Or.inr ⟨Or.inl h, ?_⟩
          subst h; simp; omega
        · refine Or.inr ⟨Or.inr h, ?_⟩
          have := hrest _ h
          omega
      · rintro (h | ⟨h | h, hne⟩)
        · exact Or.inl h
        · exact Or.inr (Or.inl h)
        · exact Or.inr (Or.inr h)
    · rw [if_neg h1]
      by_cases h2 : k = k₀
      · rw [if_pos h2]
        simp only [List.mem_cons]
        constructor
        · rintro (h | h)
          · exact Or.inl h
          · refine Or.inr ⟨Or.inr h, ?_⟩
            have := hrest _ h
            omega
        · rintro (h | ⟨h | h, hne⟩)
          · exact Or.inl h
          · exfalso
            subst h
            simp at hne
            omega
          · exact Or.inr h
      · rw [if_neg h2]
        simp only [List.mem_cons,
          ih (List.pairwise_cons.mp ht).2 k a q]
        constructor
        · rintro (h | h | h)
          · refine Or.inr ⟨Or.inl h, ?_⟩
            subst h; simp; omega
          · exact Or.inl h
          · exact Or.inr ⟨Or.inr h.1, h.2⟩
        · rintro (h | ⟨h | h, hne⟩)
          · exact Or.inr (Or.inl h)
          · exact Or.inl h
          · exact Or.inr (Or.inr ⟨h, hne⟩)

theorem treeInsert_sorted : ∀ (t : STree V), t.Pairwise keyLt →
    ∀ (k : Nat) (a : SegmentValue V), (treeInsert k a t).Pairwise keyLt := by
  intro t
  induction t with
  | nil => intro _ k a; simp [treeInsert, keyLt]
  | cons p rest ih =>
    obtain ⟨k₀, x₀⟩ := p
    intro ht k a
    have hrest : ∀ p ∈ rest, k₀ < p.1 := fun p hp => (List.pairwise_cons.mp ht).1 p hp
    unfold treeInsert
    by_cases h1 : k < k₀
    · rw [if_pos h1]
      refine List.pairwise_cons.mpr ⟨?_, ht⟩
      rintro q hq
      rcases List.mem_cons.mp hq with h | h
      · subst h; simpa [keyLt] using h1
      · have := hrest _ h
        simp [keyLt]
        omega
    · rw [if_neg h1]
      by_cases h2 : k = k₀
      · rw [if_pos h2]
        refine List.pairwise_cons.mpr ⟨?_, (List.pairwise_cons.mp ht).2⟩
        intro q hq
        have := hrest _ hq
        simp [keyLt]
        omega
      · rw [if_neg h2]
        refine List.pairwise_cons.mpr ⟨?_, ih (List.pairwise_cons.mp ht).2 k a⟩
        intro q hq
        rw [treeInsert_mem rest (List.pairwise_cons.mp ht).2 k a q] at hq
        rcases hq with h | ⟨h, _⟩
        · subst h; simp [keyLt]; omega
        · exact hrest _ h

theorem mem_rangeIncl (t : STree V) (seg : Seg) (p : Nat × SegmentValue V) :
    p ∈ rangeIncl t seg ↔ p ∈ t ∧ seg.start ≤ p.1 ∧ p.1 ≤ seg.«end» := by
  simp [rangeIncl, List.mem_filter]

theorem rangeIncl_pairwise (t : STree V) (ht : t.Pairwise keyLt) (seg : Seg) :
    (rangeIncl t seg).Pairwise keyLt :=
  ht.sublist (List.filter_sublist _)

theorem key_unique (t : STree V) (ht : t.Pairwise keyLt) (k : Nat)
    (a₁ a₂ : SegmentValue V) (h₁ : (k, a₁) ∈ t) (h₂ : (k, a₂) ∈ t) : a₁ = a₂ := by
  have e₁ := (treeFind_some_iff t ht k a₁).mpr h₁
  have e₂ := (treeFind_some_iff t ht k a₂).mpr h₂
  rw [e₁] at e₂
  simpa using e₂

theorem segs_rel (segs : List (Nat × Nat × V)) (hwf : SegsWF segs) :
    ∀ x ∈ segs, ∀ y ∈ segs, x ≠ y → x.2.1 ≤ y.1 ∨ y.2.1 ≤ x.1 := by
  intro x hx y hy hne
  obtain ⟨i, hi, hxi⟩ := List.mem_iff_getElem.mp hx
  obtain ⟨j, hj, hyj⟩ := List.mem_iff_getElem.mp hy
  have hpw := List.pairwise_iff_getElem.mp hwf.2
  rcases Nat.lt_trichotomy i j with h | h | h
  · exact Or.inl (hxi ▸ hyj ▸ hpw i j hi hj h)
  · subst h; exact absurd (hxi.symm.trans hyj) hne
  · exact Or.inr (hxi ▸ hyj ▸ hpw j i hj hi h)

theorem end_unique (segs : List (Nat × Nat × V)) (hwf : SegsWF segs)
    (k : Nat) (w₁ w₂ : V) (h₁ : endsAt segs k w₁) (h₂ : endsAt segs k w₂) : w₁ = w₂ := by
  obtain ⟨x, hx, hxe, hxw⟩ := h₁
  obtain ⟨y, hy, hye, hyw⟩ := h₂
  by_cases hxy : x = y
  · subst hxy; rw [← hxw, ← hyw]
  · exfalso
    have hvx := hwf.1 x hx
    have hvy := hwf.1 y hy
    rcases segs_rel segs hwf x hx y hy hxy with h | h <;> omega

theorem implSegment_two (s e : Nat) (hse : s ≠ e) (x y : SegmentValue V) (v : V)
    (hx : x = .start ∨ ∃ w, x = .endStart w) (hy : y = .endv v ∨ y = .endStart v) :
    implSegment ⟨s, e⟩ [(s, x), (e, y)] = .found v := by
  rcases hx with hx | ⟨w, hx⟩ <;> subst hx <;>
    rcases hy with hy | hy <;> subst hy <;>
      simp [implSegment, implAfterStart, hse]

/-- Exact lookup of a stored segment on the canonical encoding. -/
theorem get_segment_encode_found (segs : List (Nat × Nat × V)) (hwf : SegsWF segs)
    (s e : Nat) (v : V) (hmem : (s, e, v) ∈ segs) :
    SegmentTree.get_segment (encode segs) ⟨s, e⟩ = .found v := by
  have hse : s < e := hwf.1 (s, e, v) hmem
  have hpw := encode_pairwise segs hwf
  have hstart_pin : ∀ k, startsAt segs k → s ≤ k → k ≤ e → k = s ∨ k = e := by
    rintro k ⟨x, hx, hxk⟩ hks hke
    by_cases hxy : x = (s, e, v)
    · subst hxy; exact Or.inl hxk.symm
    · have hvx := hwf.1 x hx
      rcases segs_rel segs hwf x hx (s, e, v) hmem hxy with h | h
      · dsimp at h; omega
      · dsimp at h; omega
  have hend_pin : ∀ k w, endsAt segs k w → s ≤ k → k ≤ e → k = s ∨ k = e := by
    rintro k w ⟨x, hx, hxk, _⟩ hks hke
    by_cases hxy : x = (s, e, v)
    · subst hxy; exact Or.inr hxk.symm
    · have hvx := hwf.1 x hx
      rcases segs_rel segs hwf x hx (s, e, v) hmem hxy with h | h
      · dsimp at h; omega
      · dsimp at h; omega
  have hstartsS : startsAt segs s := ⟨(s, e, v), hmem, rfl⟩
  have hendsE : endsAt segs e v := ⟨(s, e, v), hmem, rfl, rfl⟩
  -- the anchor at the start key
  have hxch : ∃ x, ((s, x) ∈ encode segs) ∧ (x = .start ∨ ∃ w, x = .endStart w) := by
    by_cases hes : ∃ w, endsAt segs s w
    · obtain ⟨w, hw⟩ := hes
      exact ⟨.endStart w,
        (encode_mem segs hwf s _).mpr (Or.inr (Or.inr ⟨w, rfl, hw, hstartsS⟩)),
        Or.inr ⟨w, rfl⟩⟩
    · exact ⟨.start,
        (encode_mem segs hwf s _).mpr (Or.inl ⟨rfl, hstartsS, fun w hw => hes ⟨w, hw⟩⟩),
        Or.inl rfl⟩
  -- the anchor at the end key
  have hych : ∃ y, ((e, y) ∈ encode segs) ∧ (y = .endv v ∨ y = .endStart v) := by
    by_cases hss : startsAt segs e
    · exact ⟨.endStart v,
        (encode_mem segs hwf e _).mpr (Or.inr (Or.inr ⟨v, rfl, hendsE, hss⟩)),
        Or.inr rfl⟩
    · exact ⟨.endv v,
        (encode_mem segs hwf e _).mpr (Or.inr (Or.inl ⟨v, rfl, hendsE, hss⟩)),
        Or.inl rfl⟩
  obtain ⟨x, hxmem, hxsh⟩ := hxch
  obtain ⟨y, hymem, hysh⟩ := hych
  have hfilter : rangeIncl (encode segs) ⟨s, e⟩ = [(s, x), (e, y)] := by
    apply sorted_mem_ext _ _ (rangeIncl_pairwise _ hpw _)
      (by simp [List.pairwise_cons, keyLt]; omega)
    intro p
    rw [mem_rangeIncl]
    constructor
    · rintro ⟨hp, hps, hpe⟩
      have hchar := (encode_mem segs hwf p.1 p.2).mp (by simpa using hp)
      have hkey : p.1 = s ∨ p.1 = e := by
        rcases hchar with ⟨_, hst, _⟩ | ⟨w, _, hed, _⟩ | ⟨w, _, hed, _⟩
        · exact hstart_pin p.1 hst hps hpe
        · exact hend_pin p.1 w hed hps hpe
        · exact hend_pin p.1 w hed hps hpe
      rcases hkey with hk | hk
      · have : p.2 = x := key_unique _ hpw s p.2 x (by rw [← hk]; simpa using hp) hxmem
        simp [← hk, ← this]
      · have : p.2 = y := key_unique _ hpw e p.2 y (by rw [← hk]; simpa using hp) hymem
        simp [← hk, ← this]
    · rintro hp
      rcases List.mem_cons.mp hp with h | h
      · subst h; exact ⟨hxmem, Nat.le_refl _, Nat.le_of_lt hse⟩
      · rcases List.mem_cons.mp h with h' | h'
        · subst h'; exact ⟨hymem, Nat.le_of_lt hse, Nat.le_refl _⟩
        · simp at h'
  unfold SegmentTree.get_segment
  rw [hfilter]
  exact implSegment_two s e (by omega) x y v hxsh hysh

/-- Lookup of a segment disjoint from every stored segment (touching allowed)
classifies as absent. -/
theorem get_segment_encode_disjoint (segs : List (Nat × Nat × V)) (hwf : SegsWF segs)
    (a b : Nat) (hab : a < b)
    (hdisj : ∀ x ∈ segs, b ≤ x.1 ∨ x.2.1 ≤ a) :
    SegmentTree.get_segment (encode segs) ⟨a, b⟩ = .missing := by
  have hpw := encode_pairwise segs hwf
  have hstart_pin : ∀ k, startsAt segs k → a ≤ k → k ≤ b → k = b := by
    rintro k ⟨x, hx, hxk⟩ hka hkb
    have hvx := hwf.1 x hx
    rcases hdisj x hx with h | h <;> omega
  have hend_pin : ∀ k w, endsAt segs k w → a ≤ k → k ≤ b → k = a := by
    rintro k w ⟨x, hx, hxk, _⟩ hka hkb
    have hvx := hwf.1 x hx
    rcases hdisj x hx with h | h <;> omega
  have hnsa : ¬ startsAt segs a := by
    intro hc
    have := hstart_pin a hc (Nat.le_refl _) (Nat.le_of_lt hab)
    omega
  have hneb : ∀ w, ¬ endsAt segs b w := by
    intro w hc
    have := hend_pin b w hc (Nat.le_of_lt hab) (Nat.le_refl _)
    omega
  have hchar_pin : ∀ p : Nat × SegmentValue V, p ∈ encode segs → a ≤ p.1 → p.1 ≤ b →
      (p.1 = a ∧ ∃ w, p.2 = .endv w ∧ endsAt segs a w) ∨
      (p.1 = b ∧ p.2 = .start ∧ startsAt segs b) := by
    intro p hp hpa hpb
    have hchar := (encode_mem segs hwf p.1 p.2).mp (by simpa using hp)
    rcases hchar with ⟨ha, hst, hnd⟩ | ⟨w, ha, hed, hst⟩ | ⟨w, ha, hed, hst⟩
    · exact Or.inr ⟨hstart_pin p.1 hst hpa hpb, ha, hstart_pin p.1 hst hpa hpb ▸ hst⟩
    · have hk := hend_pin p.1 w hed hpa hpb
      exact Or.inl ⟨hk, w, ha, hk ▸ hed⟩
    · exfalso
      have hk := hend_pin p.1 w hed hpa hpb
      rw [hk] at hst
      exact hnsa hst
  by_cases hEa : ∃ w, endsAt segs a w
  · obtain ⟨w₀, hw₀⟩ := hEa
    have hamem : (a, SegmentValue.endv w₀) ∈ encode segs :=
      (encode_mem segs hwf a _).mpr (Or.inr (Or.inl ⟨w₀, rfl, hw₀, hnsa⟩))
    by_cases hSb : startsAt segs b
    · have hbmem : (b, SegmentValue.start) ∈ encode segs :=
        (encode_mem segs hwf b _).mpr (Or.inl ⟨rfl, hSb, hneb⟩)
      have hfilter : rangeIncl (encode segs) ⟨a, b⟩ =
          [(a, SegmentValue.endv w₀), (b, SegmentValue.start)] := by
        apply sorted_mem_ext _ _ (rangeIncl_pairwise _ hpw _)
          (by simp [List.pairwise_cons, keyLt]; omega)
        intro p
        rw [mem_rangeIncl]
        constructor
        · rintro ⟨hp, hps, hpe⟩
          rcases hchar_pin p hp hps hpe with ⟨hk, w, hv, hw⟩ | ⟨hk, hv, _⟩
          · have : p.2 = SegmentValue.endv w₀ :=
              key_unique _ hpw a p.2 _ (by rw [← hk]; simpa using hp) hamem
            simp [← hk, ← this]
          · have : p.2 = SegmentValue.start :=
              key_unique _ hpw b p.2 _ (by rw [← hk]; simpa using hp) hbmem
            simp [← hk, ← this]
        · rintro hp
          rcases List.mem_cons.mp hp with h | h
          · subst h; exact ⟨hamem, Nat.le_refl _, Nat.le_of_lt hab⟩
          · rcases List.mem_cons.mp h with h' | h'
            · subst h'; exact ⟨hbmem, Nat.le_of_lt hab, Nat.le_refl _⟩
            · simp at h'
      unfold SegmentTree.get_segment
      rw [hfilter]
      simp [implSegment, implAfterEnd]
    · have hfilter : rangeIncl (encode segs) ⟨a, b⟩ = [(a, SegmentValue.endv w₀)] := by
        apply sorted_mem_ext _ _ (rangeIncl_pairwise _ hpw _) (by simp)
        intro p
        rw [mem_rangeIncl]
        constructor
        · rintro ⟨hp, hps, hpe⟩
          rcases hchar_pin p hp hps hpe with ⟨hk, w, hv, hw⟩ | ⟨hk, hv, hsb⟩
          · have : p.2 = SegmentValue.endv w₀ :=
              key_unique _ hpw a p.2 _ (by rw [← hk]; simpa using hp) hamem
            simp [← hk, ← this]
          · exact absurd hsb hSb
        · rintro hp
          rcases List.mem_cons.mp hp with h | h
          · subst h; exact ⟨hamem, Nat.le_refl _, Nat.le_of_lt hab⟩
          · simp at h
      unfold SegmentTree.get_segment
      rw [hfilter]
      simp [implSegment, implAfterEnd]
  · by_cases hSb : startsAt segs b
    · have hbmem : (b, SegmentValue.start) ∈ encode segs :=
        (encode_mem segs hwf b _).mpr (Or.inl ⟨rfl, hSb, hneb⟩)
      have hfilter : rangeIncl (encode segs) ⟨a, b⟩ = [(b, SegmentValue.start)] := by
        apply sorted_mem_ext _ _ (rangeIncl_pairwise _ hpw _) (by simp)
        intro p
        rw [mem_rangeIncl]
        constructor
        · rintro ⟨hp, hps, hpe⟩
          rcases hchar_pin p hp hps hpe with ⟨hk, w, hv, hw⟩ | ⟨hk, hv, _⟩
          · exact absurd ⟨w, hk ▸ hw⟩ hEa
          · have : p.2 = SegmentValue.start :=
              key_unique _ hpw b p.2 _ (by rw [← hk]; simpa using hp) hbmem
            simp [← hk, ← this]
        · rintro hp
          rcases List.mem_cons.mp hp with h | h
          · subst h; exact ⟨hbmem, Nat.le_of_lt hab, Nat.le_refl _⟩
          · simp at h
      unfold SegmentTree.get_segment
      rw [hfilter]
      have : b ≠ a := by omega
      simp [implSegment, this]
    · have hfilter : rangeIncl (encode segs) ⟨a, b⟩ = [] := by
        apply sorted_mem_ext _ _ (rangeIncl_pairwise _ hpw _) (by simp)
        intro p
        rw [mem_rangeIncl]
        simp only [List.not_mem_nil, iff_false]
        rintro ⟨hp, hps, hpe⟩
        rcases hchar_pin p hp hps hpe with ⟨hk, w, hv, hw⟩ | ⟨hk, hv, hsb⟩
        · exact absurd ⟨w, hk ▸ hw⟩ hEa
        · exact absurd hsb hSb
      unfold SegmentTree.get_segment
      rw [hfilter]
      rfl

theorem insertSeg_mem (x : Nat × Nat × V) : ∀ (segs : List (Nat × Nat × V)) (y : Nat × Nat × V),
    y ∈ insertSeg x segs ↔ y = x ∨ y ∈ segs := by
  intro segs
  induction segs with
  | nil => intro y; simp [insertSeg]
  | cons z r ih =>
    intro y
    unfold insertSeg
    split
    · simp only [List.mem_cons]
      try tauto
    · simp only [List.mem_cons, ih y]
      try tauto

theorem insertSeg_wf (a b : Nat) (v : V) (hab : a < b) :
    ∀ (segs : List (Nat × Nat × V)), SegsWF segs →
    (∀ x ∈ segs, b ≤ x.1 ∨ x.2.1 ≤ a) →
    SegsWF (insertSeg (a, b, v) segs) := by
  intro segs
  induction segs with
  | nil => intro _ _; exact ⟨by simp [insertSeg]; omega, by simp [insertSeg]⟩
  | cons y r ih =>
    intro hwf hdisj
    have hvy : y.1 < y.2.1 := hwf.1 y (by simp)
    have hyr : ∀ z ∈ r, y.2.1 ≤ z.1 := fun z hz => (List.pairwise_cons.mp hwf.2).1 z hz
    have hwfr : SegsWF r := ⟨fun z hz => hwf.1 z (by simp [hz]), (List.pairwise_cons.mp hwf.2).2⟩
    unfold insertSeg
    split
    · rename_i hlt
      dsimp at hlt
      have hby : b ≤ y.1 := by
        rcases hdisj y (by simp) with h | h
        · exact h
        · omega
      constructor
      · intro z hz
        rcases List.mem_cons.mp hz with h | h
        · subst h; exact hab
        · exact hwf.1 z h
      · refine List.pairwise_cons.mpr ⟨?_, hwf.2⟩
        intro z hz
        rcases List.mem_cons.mp hz with h | h
        · subst h; exact hby
        · have := hyr z h
          dsimp
          omega
    · rename_i hge
      dsimp at hge
      have hya : y.2.1 ≤ a := by
        rcases hdisj y (by simp) with h | h
        · omega
        · exact h
      have hr := ih hwfr (fun z hz => hdisj z (by simp [hz]))
      constructor
      · intro z hz
        rcases List.mem_cons.mp hz with h | h
        · subst h; exact hvy
        · exact hr.1 z h
      · refine List.pairwise_cons.mpr ⟨?_, hr.2⟩
        intro z hz
        rcases (insertSeg_mem _ _ _).mp hz with h | h
        · subst h; dsimp; omega
        · exact hyr z h

theorem startsAt_insertSeg (a b : Nat) (v : V) (segs : List (Nat × Nat × V)) (k : Nat) :
    startsAt (insertSeg (a, b, v) segs) k ↔ k = a ∨ startsAt segs k := by
  unfold startsAt
  constructor
  · rintro ⟨x, hx, hxk⟩
    rcases (insertSeg_mem _ _ _).mp hx with h | h
    · subst h; exact Or.inl hxk.symm
    · exact Or.inr ⟨x, h, hxk⟩
  · rintro (h | ⟨x, hx, hxk⟩)
    · exact ⟨(a, b, v), (insertSeg_mem _ _ _).mpr (Or.inl rfl), h.symm⟩
    · exact ⟨x, (insertSeg_mem _ _ _).mpr (Or.inr hx), hxk⟩

theorem endsAt_insertSeg (a b : Nat) (v : V) (segs : List (Nat × Nat × V)) (k : Nat) (w : V) :
    endsAt (insertSeg (a, b, v) segs) k w ↔ (k = b ∧ w = v) ∨ endsAt segs k w := by
  unfold endsAt
  constructor
  · rintro ⟨x, hx, hxk, hxw⟩
    rcases (insertSeg_mem _ _ _).mp hx with h | h
    · subst h; exact Or.inl ⟨hxk.symm, hxw.symm⟩
    · exact Or.inr ⟨x, h, hxk, hxw⟩
  · rintro (⟨hk, hw⟩ | ⟨x, hx, hxk, hxw⟩)
    · exact ⟨(a, b, v), (insertSeg_mem _ _ _).mpr (Or.inl rfl), hk.symm, hw.symm⟩
    · exact ⟨x, (insertSeg_mem _ _ _).mpr (Or.inr hx), hxk, hxw⟩

/-- A vacant insert of a segment disjoint from every stored segment succeeds
and rewrites the anchor map to the canonical encoding of the enlarged segment
list. -/
theorem vacantInsert_encode (segs : List (Nat × Nat × V)) (hwf : SegsWF segs)
    (a b : Nat) (v : V) (hab : a < b)
    (hdisj : ∀ x ∈ segs, b ≤ x.1 ∨ x.2.1 ≤ a) :
    vacantInsert (encode segs) ⟨a, b⟩ v = some (encode (insertSeg (a, b, v) segs)) := by
  have hpw := encode_pairwise segs hwf
  have hwf' : SegsWF (insertSeg (a, b, v) segs) := insertSeg_wf a b v hab segs hwf hdisj
  have hpw' := encode_pairwise _ hwf'
  have hnsa : ¬ startsAt segs a := by
    rintro ⟨x, hx, hxk⟩
    have hvx := hwf.1 x hx
    rcases hdisj x hx with h | h <;> omega
  have hnsb : ¬ startsAt segs b → True := fun _ => trivial
  have hneb : ∀ w, ¬ endsAt segs b w := by
    rintro w ⟨x, hx, hxk, _⟩
    have hvx := hwf.1 x hx
    rcases hdisj x hx with h | h <;> omega
  -- the updated anchor at the start key
  have hstep1 : ∃ xa, add_start (encode segs) a = some (treeInsert a xa (encode segs)) ∧
      (a, xa) ∈ encode (insertSeg (a, b, v) segs) := by
    by_cases hEa : ∃ w, endsAt segs a w
    · obtain ⟨w₀, hw₀⟩ := hEa
      have hamem : (a, SegmentValue.endv w₀) ∈ encode segs :=
        (encode_mem segs hwf a _).mpr (Or.inr (Or.inl ⟨w₀, rfl, hw₀, hnsa⟩))
      refine ⟨.endStart w₀, ?_, ?_⟩
      · unfold add_start
        rw [(treeFind_some_iff _ hpw a _).mpr hamem]
      · refine (encode_mem _ hwf' a _).mpr (Or.inr (Or.inr ⟨w₀, rfl, ?_, ?_⟩))
        · exact (endsAt_insertSeg a b v segs a w₀).mpr (Or.inr hw₀)
        · exact (startsAt_insertSeg a b v segs a).mpr (Or.inl rfl)
    · have hnone : treeFind (encode segs) a = none := by
        rw [treeFind_none_iff _ hpw a]
        intro x hx
        rcases (encode_mem segs hwf a x).mp hx with ⟨_, hst, _⟩ | ⟨w, _, hed, _⟩ | ⟨w, _, hed, _⟩
        · exact hnsa hst
        · exact hEa ⟨w, hed⟩
        · exact hEa ⟨w, hed⟩
      refine ⟨.start, ?_, ?_⟩
      · unfold add_start
        rw [hnone]
      · refine (encode_mem _ hwf' a _).mpr (Or.inl ⟨rfl, ?_, ?_⟩)
        · exact (startsAt_insertSeg a b v segs a).mpr (Or.inl rfl)
        · intro w hw
          rcases (endsAt_insertSeg a b v segs a w).mp hw with ⟨hk, _⟩ | hed
          · omega
          · exact hEa ⟨w, hed⟩
  obtain ⟨xa, hadds, hxa⟩ := hstep1
  have hpw₁ : (treeInsert a xa (encode segs)).Pairwise keyLt := treeInsert_sorted _ hpw a xa
  -- the updated anchor at the end key
  have hstep2 : ∃ ya, add_end (treeInsert a xa (encode segs)) b v =
      some (treeInsert b ya (treeInsert a xa (encode segs))) ∧
      (b, ya) ∈ encode (insertSeg (a, b, v) segs) := by
    by_cases hSb : startsAt segs b
    · have hbmem : (b, SegmentValue.start) ∈ encode segs :=
        (encode_mem segs hwf b _).mpr (Or.inl ⟨rfl, hSb, hneb⟩)
      have hbmem₁ : (b, SegmentValue.start) ∈ treeInsert a xa (encode segs) :=
        (treeInsert_mem _ hpw a xa _).mpr (Or.inr ⟨hbmem, by simp; omega⟩)
      refine ⟨.endStart v, ?_, ?_⟩
      · unfold add_end
        rw [(treeFind_some_iff _ hpw₁ b _).mpr hbmem₁]
      · refine (encode_mem _ hwf' b _).mpr (Or.inr (Or.inr ⟨v, rfl, ?_, ?_⟩))
        · exact (endsAt_insertSeg a b v segs b v).mpr (Or.inl ⟨rfl, rfl⟩)
        · exact (startsAt_insertSeg a b v segs b).mpr (Or.inr hSb)
    · have hnone : treeFind (treeInsert a xa (encode segs)) b = none := by
        rw [treeFind_none_iff _ hpw₁ b]
        intro x hx
        rcases (treeInsert_mem _ hpw a xa _).mp hx with h | ⟨h, _⟩
        · have : b = a := by simpa using congrArg Prod.fst h
          omega
        · rcases (encode_mem segs hwf b x).mp h with ⟨_, hst, _⟩ | ⟨w, _, hed, _⟩ | ⟨w, _, hed, _⟩
          · exact hSb hst
          · exact hneb w hed
          · exact hneb w hed
      refine ⟨.endv v, ?_, ?_⟩
      · unfold add_end
        rw [hnone]
      · refine (encode_mem _ hwf' b _).mpr (Or.inr (Or.inl ⟨v, rfl, ?_, ?_⟩))
        · exact (endsAt_insertSeg a b v segs b v).mpr (Or.inl ⟨rfl, rfl⟩)
        · intro hc
          rcases (startsAt_insertSeg a b v segs b).mp hc with hk | hst
          · omega
          · exact hSb hst
  obtain ⟨ya, hadde, hya⟩ := hstep2
  -- run the insert and compare the two anchor maps extensionally
  unfold vacantInsert
  rw [hadds]
  dsimp only
  rw [hadde]
  congr 1
  apply sorted_mem_ext _ _ (treeInsert_sorted _ hpw₁ b ya) hpw'
  rintro ⟨k, x⟩
  rw [treeInsert_mem _ hpw₁ b ya _, treeInsert_mem _ hpw a xa _]
  constructor
  · rintro (h | ⟨h | ⟨h, hka⟩, hkb⟩)
    · rw [h]; exact hya
    · rw [h]; exact hxa
    · -- an untouched anchor
      simp only at hka hkb
      rcases (encode_mem segs hwf k x).mp h with ⟨ha, hst, hnd⟩ | ⟨w, ha, hed, hst⟩ | ⟨w, ha, hed, hst⟩
      · refine (encode_mem _ hwf' k _).mpr (Or.inl ⟨ha, ?_, ?_⟩)
        · exact (startsAt_insertSeg a b v segs k).mpr (Or.inr hst)
        · intro w hw
          rcases (endsAt_insertSeg a b v segs k w).mp hw with ⟨hk, _⟩ | hed
          · exact hkb hk
          · exact hnd w hed
      · refine (encode_mem _ hwf' k _).mpr (Or.inr (Or.inl ⟨w, ha, ?_, ?_⟩))
        · exact (endsAt_insertSeg a b v segs k w).mpr (Or.inr hed)
        · intro hc
          rcases (startsAt_insertSeg a b v segs k).mp hc with hk | hst'
          · exact hka hk
          · exact hst hst'
      · refine (encode_mem _ hwf' k _).mpr (Or.inr (Or.inr ⟨w, ha, ?_, ?_⟩))
        · exact (endsAt_insertSeg a b v segs k w).mpr (Or.inr hed)
        · exact (startsAt_insertSeg a b v segs k).mpr (Or.inr hst)
  · intro h
    by_cases hkb : k = b
    · have hx : x = ya := key_unique _ hpw' b x ya (hkb ▸ h) hya
      exact Or.inl (by rw [hkb, hx])
    · by_cases hka : k = a
      · have hx : x = xa := key_unique _ hpw' a x xa (hka ▸ h) hxa
        refine Or.inr ⟨Or.inl (by rw [hka, hx]), ?_⟩
        simp only
        omega
      · refine Or.inr ⟨Or.inr ⟨?_, by simpa using hka⟩, by simpa using hkb⟩
        rcases (encode_mem _ hwf' k x).mp h with ⟨ha, hst, hnd⟩ | ⟨w, ha, hed, hst⟩ | ⟨w, ha, hed, hst⟩
        · refine (encode_mem segs hwf k x).mpr (Or.inl ⟨ha, ?_, ?_⟩)
          · rcases (startsAt_insertSeg a b v segs k).mp hst with hk | hst'
            · exact absurd hk hka
            · exact hst'
          · intro w hw
            exact hnd w ((endsAt_insertSeg a b v segs k w).mpr (Or.inr hw))
        · refine (encode_mem segs hwf k x).mpr (Or.inr (Or.inl ⟨w, ha, ?_, ?_⟩))
          · rcases (endsAt_insertSeg a b v segs k w).mp hed with ⟨hk, _⟩ | hed'
            · exact absurd hk hkb
            · exact hed'
          · intro hc
            exact hst ((startsAt_insertSeg a b v segs k).mpr (Or.inr hc))
        · refine (encode_mem segs hwf k x).mpr (Or.inr (Or.inr ⟨w, ha, ?_, ?_⟩))
          · rcases (endsAt_insertSeg a b v segs k w).mp hed with ⟨hk, _⟩ | hed'
            · exact absurd hk hkb
            · exact hed'
          · rcases (startsAt_insertSeg a b v segs k).mp hst with hk | hst'
            · exact absurd hk hka
            · exact hst'

theorem sorted_getLast_max : ∀ (l : List (Nat × SegmentValue V)), l.Pairwise keyLt →
    ∀ q, l.getLast? = some q → q ∈ l ∧ ∀ r ∈ l, r.1 ≤ q.1 := by
  intro l
  induction l with
  | nil => intro _ q hq; simp at hq
  | cons c rest ih =>
    intro hpw q hq
    cases rest with
    | nil =>
      simp at hq
      subst hq
      exact ⟨by simp, by intro r hr; simp at hr; subst hr; omega⟩
    | cons d rest' =>
      rw [List.getLast?_cons_cons] at hq
      obtain ⟨hmem, hmax⟩ := ih (List.pairwise_cons.mp hpw).2 q hq
      refine ⟨List.mem_cons_of_mem _ hmem, ?_⟩
      intro r hr
      rcases List.mem_cons.mp hr with h | h
      · subst h
        have := (List.pairwise_cons.mp hpw).1 q hmem
        simp [keyLt] at this
        omega
      · exact hmax r h

theorem filter_getLast_max : ∀ (t : STree V), t.Pairwise keyLt →
    ∀ (p : Nat) (q : Nat × SegmentValue V),
    q ∈ t → q.1 ≤ p → (∀ r ∈ t, r.1 ≤ p → r.1 ≤ q.1) →
    (t.filter fun r => decide (r.1 ≤ p)).getLast? = some q := by
  intro t
  induction t with
  | nil => intro _ p q hq; simp at hq
  | cons c rest ih =>
    intro ht p q hq hqp hmax
    have hrest : ∀ r ∈ rest, c.1 < r.1 := fun r hr => (List.pairwise_cons.mp ht).1 r hr
    by_cases hc : c.1 ≤ p
    · rw [List.filter_cons_of_pos (by simpa using hc)]
      rcases List.mem_cons.mp hq with h | h
      · subst h
        have hnil : rest.filter (fun r => decide (r.1 ≤ p)) = [] := by
          rw [List.filter_eq_nil_iff]
          intro r hr
          have h1 := hrest r hr
          have h2 := hmax r (List.mem_cons_of_mem _ hr)
          simp only [decide_eq_true_eq]
          omega
        rw [hnil]
        rfl
      · have hne : rest.filter (fun r => decide (r.1 ≤ p)) ≠ [] := by
          intro hc'
          have : q ∈ rest.filter (fun r => decide (r.1 ≤ p)) :=
            List.mem_filter.mpr ⟨h, by simpa using hqp⟩
          rw [hc'] at this
          simp at this
        obtain ⟨d, l', hd⟩ := List.exists_cons_of_ne_nil hne
        rw [hd, List.getLast?_cons_cons, ← hd]
        exact ih (List.pairwise_cons.mp ht).2 p q h hqp
          (fun r hr hrp => hmax r (List.mem_cons_of_mem _ hr) hrp)
    · rw [List.filter_cons_of_neg (by simpa using hc)]
      rcases List.mem_cons.mp hq with h | h
      · subst h; omega
      · exact ih (List.pairwise_cons.mp ht).2 p q h hqp
          (fun r hr hrp => hmax r (List.mem_cons_of_mem _ hr) hrp)

theorem filter_head_min : ∀ (t : STree V), t.Pairwise keyLt →
    ∀ (p : Nat) (q : Nat × SegmentValue V),
    q ∈ t → p < q.1 → (∀ r ∈ t, p < r.1 → q.1 ≤ r.1) →
    (t.filter fun r => decide (p < r.1)).head? = some q := by
  intro t
  induction t with
  | nil => intro _ p q hq; simp at hq
  | cons c rest ih =>
    intro ht p q hq hqp hmin
    have hrest : ∀ r ∈ rest, c.1 < r.1 := fun r hr => (List.pairwise_cons.mp ht).1 r hr
    by_cases hc : p < c.1
    · rw [List.filter_cons_of_pos (by simpa using hc)]
      have hqc : q = c := by
        rcases List.mem_cons.mp hq with h | h
        · exact h
        · exfalso
          have h1 := hrest q h
          have h2 := hmin c (by simp) hc
          omega
      rw [hqc]
      rfl
    · rw [List.filter_cons_of_neg (by simpa using hc)]
      rcases List.mem_cons.mp hq with h | h
      · subst h; omega
      · exact ih (List.pairwise_cons.mp ht).2 p q h hqp
          (fun r hr hrp => hmin r (List.mem_cons_of_mem _ hr) hrp)

theorem get_containing_encode_found (segs : List (Nat × Nat × V)) (hwf : SegsWF segs)
    (s e : Nat) (v : V) (hmem : (s, e, v) ∈ segs) (p : Nat) (hsp : s ≤ p) (hpe : p < e) :
    SegmentTree.get_containing_segment (encode segs) p = some (⟨s, e⟩, v) := by
  have hse : s < e := hwf.1 (s, e, v) hmem
  have hpw := encode_pairwise segs hwf
  have hstartsS : startsAt segs s := ⟨(s, e, v), hmem, rfl⟩
  have hendsE : endsAt segs e v := ⟨(s, e, v), hmem, rfl, rfl⟩
  have hxch : ∃ x, ((s, x) ∈ encode segs) ∧ (x = .start ∨ ∃ w, x = .endStart w) := by
    by_cases hes : ∃ w, endsAt segs s w
    · obtain ⟨w, hw⟩ := hes
      exact ⟨.endStart w,
        (encode_mem segs hwf s _).mpr (Or.inr (Or.inr ⟨w, rfl, hw, hstartsS⟩)),
        Or.inr ⟨w, rfl⟩⟩
    · exact ⟨.start,
        (encode_mem segs hwf s _).mpr (Or.inl ⟨rfl, hstartsS, fun w hw => hes ⟨w, hw⟩⟩),
        Or.inl rfl⟩
  have hych : ∃ y, ((e, y) ∈ encode segs) ∧ (y = .endv v ∨ y = .endStart v) := by
    by_cases hss : startsAt segs e
    · exact ⟨.endStart v,
        (encode_mem segs hwf e _).mpr (Or.inr (Or.inr ⟨v, rfl, hendsE, hss⟩)),
        Or.inr rfl⟩
    · exact ⟨.endv v,
        (encode_mem segs hwf e _).mpr (Or.inr (Or.inl ⟨v, rfl, hendsE, hss⟩)),
        Or.inl rfl⟩
  obtain ⟨x, hxmem, hxsh⟩ := hxch
  obtain ⟨y, hymem, hysh⟩ := hych
  have hanchor : ∀ r ∈ encode segs,
      (∃ z ∈ segs, z.1 = r.1) ∨ (∃ z ∈ segs, z.2.1 = r.1) := by
    intro r hr
    obtain ⟨k, a⟩ := r
    rcases (encode_mem segs hwf k a).mp hr with
        ⟨_, ⟨z, hz, hzk⟩, _⟩ | ⟨w, _, ⟨z, hz, hzk, _⟩, _⟩ | ⟨w, _, ⟨z, hz, hzk, _⟩, _⟩
    · exact Or.inl ⟨z, hz, hzk⟩
    · exact Or.inr ⟨z, hz, hzk⟩
    · exact Or.inr ⟨z, hz, hzk⟩
  have hmax : ∀ r ∈ encode segs, r.1 ≤ p → r.1 ≤ s := by
    intro r hr hrp
    by_contra hgt
    push_neg at hgt
    rcases hanchor r hr with ⟨z, hz, hzk⟩ | ⟨z, hz, hzk⟩ <;>
      (by_cases hze : z = (s, e, v)
       · subst hze; dsimp at hzk; omega
       · have hv := hwf.1 z hz
         rcases segs_rel segs hwf z hz (s, e, v) hmem hze with h | h <;>
           (dsimp at h; omega))
  have hmin : ∀ r ∈ encode segs, p < r.1 → e ≤ r.1 := by
    intro r hr hrp
    rcases hanchor r hr with ⟨z, hz, hzk⟩ | ⟨z, hz, hzk⟩ <;>
      (by_cases hze : z = (s, e, v)
       · subst hze; dsimp at hzk; omega
       · have hv := hwf.1 z hz
         rcases segs_rel segs hwf z hz (s, e, v) hmem hze with h | h <;>
           (dsimp at h; omega))
  have hL := filter_getLast_max (encode segs) hpw p (s, x) hxmem hsp
    (fun r hr hrp => hmax r hr hrp)
  have hH := filter_head_min (encode segs) hpw p (e, y) hymem hpe
    (fun r hr hrp => hmin r hr hrp)
  unfold SegmentTree.get_containing_segment
  rw [hL, hH]
  rcases hxsh with hx | ⟨w, hx⟩ <;> subst hx <;> rcases hysh with hy | hy <;> subst hy <;> rfl

theorem get_containing_encode_none (segs : List (Nat × Nat × V)) (hwf : SegsWF segs)
    (p : Nat) (hnone : ∀ x ∈ segs, ¬ (x.1 ≤ p ∧ p < x.2.1)) :
    SegmentTree.get_containing_segment (encode segs) p = none := by
  have hpw := encode_pairwise segs hwf
  unfold SegmentTree.get_containing_segment
  cases hL : ((encode segs).filter fun r => decide (r.1 ≤ p)).getLast? with
  | none =>
    cases hH : ((encode segs).filter fun r => decide (p < r.1)).head? with
    | none => rfl
    | some qe => rfl
  | some q =>
    obtain ⟨ks, vs⟩ := q
    have hfpw : ((encode segs).filter fun r => decide (r.1 ≤ p)).Pairwise keyLt :=
      hpw.sublist (List.filter_sublist _)
    obtain ⟨hqmem, hqmax⟩ := sorted_getLast_max _ hfpw (ks, vs) hL
    have hqt : (ks, vs) ∈ encode segs := (List.mem_filter.mp hqmem).1
    have hksp : ks ≤ p := by simpa using (List.mem_filter.mp hqmem).2
    have hnostart : ¬ startsAt segs ks := by
      rintro ⟨z, hz, hzk⟩
      have hzv := hwf.1 z hz
      have hz2 : z.2.1 ≤ p := by
        have := hnone z hz
        omega
      have hend : endsAt segs z.2.1 z.2.2 := ⟨z, hz, rfl, rfl⟩
      have hanch : ∃ a, (z.2.1, a) ∈ encode segs := by
        by_cases hss : startsAt segs z.2.1
        · exact ⟨_, (encode_mem segs hwf z.2.1 _).mpr
            (Or.inr (Or.inr ⟨z.2.2, rfl, hend, hss⟩))⟩
        · exact ⟨_, (encode_mem segs hwf z.2.1 _).mpr
            (Or.inr (Or.inl ⟨z.2.2, rfl, hend, hss⟩))⟩
      obtain ⟨a, ha⟩ := hanch
      have hmf : (z.2.1, a) ∈ (encode segs).filter fun r => decide (r.1 ≤ p) :=
        List.mem_filter.mpr ⟨ha, by simpa using hz2⟩
      have hle := hqmax _ hmf
      dsimp at hle
      omega
    rcases (encode_mem segs hwf ks vs).mp hqt with
        ⟨hvs, hst, _⟩ | ⟨w, hvs, _, _⟩ | ⟨w, hvs, _, hst⟩
    · exact absurd hst hnostart
    · subst hvs
      cases hH : ((encode segs).filter fun r => decide (p < r.1)).head? with
      | none => rfl
      | some qe =>
        obtain ⟨ke, ve⟩ := qe
        rfl
    · exact absurd hst hnostart

/-- **C5.** On a segment map storing a pairwise-disjoint family of segments
(the canonical anchor encoding of `segs`), `get_containing_segment(p)`
returns the unique stored segment `[s, e)` with `s ≤ p < e` together with its
value when one exists, and `none` when no stored segment contains `p`; at a
shared endpoint of two touching segments the right-hand one is returned,
since containment requires `p` strictly below the end. -/
theorem get_containing_segment_spec (segs : List (Nat × Nat × V)) (hwf : SegsWF segs)
    (p : Nat) :
    (∀ s e v, (s, e, v) ∈ segs → s ≤ p → p < e →
      SegmentTree.get_containing_segment (encode segs) p = some (⟨s, e⟩, v)) ∧
    ((∀ x ∈ segs, ¬ (x.1 ≤ p ∧ p < x.2.1)) →
      SegmentTree.get_containing_segment (encode segs) p = none) :=
  ⟨fun s e v hmem hsp hpe => get_containing_encode_found segs hwf s e v hmem p hsp hpe,
   fun h => get_containing_encode_none segs hwf p h⟩

/-- Witness for C5: stored `[1,3)↦10` and `[3,5)↦20` (touching at 3); the
point 3 yields the right-hand segment, the point 5 yields `none`. -/
theorem get_containing_segment_spec_witness :
    SegmentTree.get_containing_segment (V := Nat) (encode [(1, 3, 10), (3, 5, 20)]) 3 =
        some (⟨3, 5⟩, 20) ∧
    SegmentTree.get_containing_segment (V := Nat) (encode [(1, 3, 10), (3, 5, 20)]) 5 =
        none :=
  ⟨(get_containing_segment_spec [(1, 3, 10), (3, 5, 20)] ⟨by decide, by decide⟩ 3).1
      3 5 20 (by decide) (by decide) (by decide),
   (get_containing_segment_spec [(1, 3, 10), (3, 5, 20)] ⟨by decide, by decide⟩ 5).2
      (by decide)⟩

theorem searchGo_disjoint (base : List (Nat × Nat × Nat)) (hwf : SegsWF base) :
    ∀ (l : List Seg) (idx : Option Nat),
    (∀ seg ∈ l, seg.start < seg.«end» ∧ ∀ x ∈ base, seg.«end» ≤ x.1 ∨ x.2.1 ≤ seg.start) →
    SegmentArrayTree.searchGo (encode base) idx l = .ok idx := by
  intro l
  induction l with
  | nil => intro idx _; rfl
  | cons seg rest ih =>
    intro idx h
    obtain ⟨s, e⟩ := seg
    obtain ⟨hv, hd⟩ := h ⟨s, e⟩ (by simp)
    have hmiss := get_segment_encode_disjoint base hwf s e hv hd
    unfold SegmentArrayTree.searchGo
    simp only [hmiss]
    exact ih idx (fun g hg => h g (by simp [hg]))

theorem searchGo_owner (base : List (Nat × Nat × Nat)) (hwf : SegsWF base) (m : Nat) :
    ∀ (l : List Seg),
    (∀ seg ∈ l, ((seg.start, seg.«end», m) ∈ base) ∨
      (seg.start < seg.«end» ∧ ∀ x ∈ base, seg.«end» ≤ x.1 ∨ x.2.1 ≤ seg.start)) →
    SegmentArrayTree.searchGo (encode base) (some m) l = .ok (some m) := by
  intro l
  induction l with
  | nil => intro _; rfl
  | cons seg rest ih =>
    intro h
    obtain ⟨s, e⟩ := seg
    rcases h ⟨s, e⟩ (by simp) with hst | ⟨hv, hd⟩
    · have hfound := get_segment_encode_found base hwf s e m hst
      unfold SegmentArrayTree.searchGo
      simp only [hfound]
      rw [if_neg (fun hc : m ≠ m => hc rfl)]
      exact ih (fun g hg => h g (by simp [hg]))
    · have hmiss := get_segment_encode_disjoint base hwf s e hv hd
      unfold SegmentArrayTree.searchGo
      simp only [hmiss]
      exact ih (fun g hg => h g (by simp [hg]))

theorem searchGo_none_owner (base : List (Nat × Nat × Nat)) (hwf : SegsWF base) (m : Nat)
    (seg : Seg) (rest : List Seg)
    (hst : (seg.start, seg.«end», m) ∈ base)
    (h : ∀ g ∈ rest, ((g.start, g.«end», m) ∈ base) ∨
      (g.start < g.«end» ∧ ∀ x ∈ base, g.«end» ≤ x.1 ∨ x.2.1 ≤ g.start)) :
    SegmentArrayTree.searchGo (encode base) none (seg :: rest) = .ok (some m) := by
  obtain ⟨s, e⟩ := seg
  have hfound := get_segment_encode_found base hwf s e m hst
  unfold SegmentArrayTree.searchGo
  simp only [hfound]
  exact searchGo_owner base hwf m rest h

theorem insertLoop_encode (idx : Nat) :
    ∀ (l : List Seg) (cur : List (Nat × Nat × Nat)), SegsWF cur →
    (∀ seg ∈ l, seg.start < seg.«end») →
    l.Pairwise (fun a b => a.«end» ≤ b.start ∨ b.«end» ≤ a.start) →
    (∀ seg ∈ l, ((seg.start, seg.«end», idx) ∈ cur) ∨
      (∀ x ∈ cur, seg.«end» ≤ x.1 ∨ x.2.1 ≤ seg.start)) →
    ∃ cur', SegmentArrayTree.insertLoop idx (encode cur) l = some (encode cur') ∧
      SegsWF cur' ∧
      (∀ x, x ∈ cur' ↔ (x ∈ cur ∨ ∃ seg ∈ l, x = (seg.start, seg.«end», idx))) := by
  intro l
  induction l with
  | nil =>
    intro cur hwf _ _ _
    exact ⟨cur, rfl, hwf, fun x => by simp⟩
  | cons seg rest ih =>
    intro cur hwf hv hpw hsd
    obtain ⟨s, e⟩ := seg
    have hse : s < e := hv ⟨s, e⟩ (by simp)
    rcases hsd ⟨s, e⟩ (by simp) with hst | hd
    · have hfound := get_segment_encode_found cur hwf s e idx hst
      unfold SegmentArrayTree.insertLoop
      simp only [hfound]
      obtain ⟨cur', heq, hwf', hmem⟩ := ih cur hwf (fun g hg => hv g (by simp [hg]))
        (List.pairwise_cons.mp hpw).2 (fun g hg => hsd g (by simp [hg]))
      refine ⟨cur', heq, hwf', fun x => ?_⟩
      rw [hmem x]
      constructor
      · rintro (hx | ⟨g, hg, hxg⟩)
        · exact Or.inl hx
        · exact Or.inr ⟨g, by simp [hg], hxg⟩
      · rintro (hx | ⟨g, hg, hxg⟩)
        · exact Or.inl hx
        · rcases List.mem_cons.mp hg with hg' | hg'
          · subst hg'
            exact Or.inl (by rw [hxg]; exact hst)
          · exact Or.inr ⟨g, hg', hxg⟩
    · have hmiss := get_segment_encode_disjoint cur hwf s e hse hd
      have hvac := vacantInsert_encode cur hwf s e idx hse hd
      unfold SegmentArrayTree.insertLoop
      simp only [hmiss, hvac]
      have hwf₂ : SegsWF (insertSeg (s, e, idx) cur) := insertSeg_wf s e idx hse cur hwf hd
      have hrel := (List.pairwise_cons.mp hpw).1
      have hrest_sd : ∀ g ∈ rest, ((g.start, g.«end», idx) ∈ insertSeg (s, e, idx) cur) ∨
          (∀ x ∈ insertSeg (s, e, idx) cur, g.«end» ≤ x.1 ∨ x.2.1 ≤ g.start) := by
        intro g hg
        rcases hsd g (by simp [hg]) with hst' | hd'
        · exact Or.inl ((insertSeg_mem _ cur _).mpr (Or.inr hst'))
        · refine Or.inr fun x hx => ?_
          rcases (insertSeg_mem _ cur x).mp hx with hx' | hx'
          · subst hx'
            rcases hrel g hg with h | h
            · exact Or.inr h
            · exact Or.inl h
          · exact hd' x hx'
      obtain ⟨cur', heq, hwf', hmemc⟩ := ih (insertSeg (s, e, idx) cur) hwf₂
        (fun g hg => hv g (by simp [hg]))
        (List.pairwise_cons.mp hpw).2
        hrest_sd
      refine ⟨cur', heq, hwf', fun x => ?_⟩
      rw [hmemc x, insertSeg_mem]
      constructor
      · rintro ((hx | hx) | ⟨g, hg, hxg⟩)
        · exact Or.inr ⟨⟨s, e⟩, by simp, hx⟩
        · exact Or.inl hx
        · exact Or.inr ⟨g, by simp [hg], hxg⟩
      · rintro (hx | ⟨g, hg, hxg⟩)
        · exact Or.inl (Or.inr hx)
        · rcases List.mem_cons.mp hg with hg' | hg'
          · subst hg'
            exact Or.inl (Or.inl hxg)
          · exact Or.inr ⟨g, hg', hxg⟩

theorem zip_self_all {α : Type} [DecidableEq α] (l : List α) :
    (l.zip l).all (fun p => p.1 == p.2) = true := by
  induction l with
  | nil => rfl
  | cons a r ih => simp [List.zip_cons_cons, List.all_cons, ih]

theorem zip_append_left {α : Type} (r : List α) : ∀ (l : List α), (l ++ r).zip l = l.zip l := by
  intro l
  induction l with
  | nil => simp
  | cons a t ih => simp only [List.cons_append, List.zip_cons_cons, ih]

theorem set_concat_length {α : Type} (a b : α) : ∀ (l : List α),
    (l ++ [a]).set l.length b = l ++ [b] := by
  intro l
  induction l with
  | nil => rfl
  | cons c t ih => simp [List.set, ih]

theorem getElem?_concat_length {α : Type} (a : α) : ∀ (l : List α), (l ++ [a])[l.length]? = some a := by
  intro l
  induction l with
  | nil => rfl
  | cons c t ih => simp [ih]

/-- **C6.** Segment-array idempotence on the canonical tree state: adding a
nonempty description whose segments are valid, pairwise disjoint and disjoint
from the stored tree yields `Added` (the description taking the next slot);
immediately adding an equal description again yields `AlreadyContained`
carrying the second argument back with the state unchanged; and adding a
strict segment-level extension (the same segments plus new disjoint ones)
yields `Replaced` with the previously stored shorter variant, which has
strictly smaller length, the extension taking its slot. -/
theorem segment_array_tree_add_spec {I : Type} [DecidableEq I] (toSeg : I → Seg)
    (A : List (List I)) (base : List (Nat × Nat × Nat)) (hwf : SegsWF base)
    (arr ext : List I) (hne : arr ≠ [])
    (hv : ∀ i ∈ arr ++ ext, (toSeg i).start < (toSeg i).«end»)
    (hpw : ((arr ++ ext).map toSeg).Pairwise
      (fun a b => a.«end» ≤ b.start ∨ b.«end» ≤ a.start))
    (hdisj : ∀ i ∈ arr ++ ext, ∀ x ∈ base,
      (toSeg i).«end» ≤ x.1 ∨ x.2.1 ≤ (toSeg i).start) :
    ∃ t₁ t₂ : STree Nat,
      SegmentArrayTree.add toSeg ⟨encode base, A⟩ arr = .ok (.Added, ⟨t₁, A ++ [arr]⟩) ∧
      SegmentArrayTree.add toSeg ⟨t₁, A ++ [arr]⟩ arr =
        .ok (.AlreadyContained arr, ⟨t₁, A ++ [arr]⟩) ∧
      (ext ≠ [] →
        arr.length < (arr ++ ext).length ∧
        SegmentArrayTree.add toSeg ⟨t₁, A ++ [arr]⟩ (arr ++ ext) =
          .ok (.Replaced arr, ⟨t₂, A ++ [arr ++ ext]⟩)) := by
  obtain ⟨d, dr, rfl⟩ := List.exists_cons_of_ne_nil hne
  rw [List.map_append] at hpw
  obtain ⟨hpwA, hpwE, hpwX⟩ := List.pairwise_append.mp hpw
  have hmemA : ∀ i ∈ d :: dr, i ∈ d :: dr ++ ext := by
    intro i hi
    rcases List.mem_cons.mp hi with h | h
    · simp [h]
    · simp [h]
  have hmemE : ∀ i ∈ ext, i ∈ d :: dr ++ ext := by
    intro i hi
    simp [hi]
  obtain ⟨base₁, hloop₁, hwf₁, hmem₁⟩ := insertLoop_encode A.length
    ((d :: dr).map toSeg) base hwf
    (fun g hg => by
      obtain ⟨i, hi, rfl⟩ := List.mem_map.mp hg
      exact hv i (hmemA i hi))
    hpwA
    (fun g hg => Or.inr (fun x hx => by
      obtain ⟨i, hi, rfl⟩ := List.mem_map.mp hg
      exact hdisj i (hmemA i hi) x hx))
  have hserA : SegmentArrayTree.searchGo (encode base) none ((d :: dr).map toSeg) =
      .ok none :=
    searchGo_disjoint base hwf ((d :: dr).map toSeg) none
      (fun g hg => by
        obtain ⟨i, hi, rfl⟩ := List.mem_map.mp hg
        exact ⟨hv i (hmemA i hi), fun x hx => hdisj i (hmemA i hi) x hx⟩)
  have haddA : SegmentArrayTree.add toSeg ⟨encode base, A⟩ (d :: dr) =
      .ok (.Added, ⟨encode base₁, A ++ [d :: dr]⟩) := by
    unfold SegmentArrayTree.add SegmentArrayTree.search_intersecting
    simp only [hserA, hloop₁]
  have hdmem : toSeg d ∈ (d :: dr).map toSeg := by simp
  have hstored : ∀ g ∈ (d :: dr).map toSeg, ((g.start, g.«end», A.length) ∈ base₁) :=
    fun g hg => (hmem₁ _).mpr (Or.inr ⟨g, hg, rfl⟩)
  have hserB : SegmentArrayTree.searchGo (encode base₁) none ((d :: dr).map toSeg) =
      .ok (some A.length) := by
    rw [List.map_cons]
    exact searchGo_none_owner base₁ hwf₁ A.length (toSeg d) (dr.map toSeg)
      (hstored _ hdmem)
      (fun g hg => Or.inl (hstored g (by rw [List.map_cons]; exact List.mem_cons_of_mem _ hg)))
  have haddB : SegmentArrayTree.add toSeg ⟨encode base₁, A ++ [d :: dr]⟩ (d :: dr) =
      .ok (.AlreadyContained (d :: dr), ⟨encode base₁, A ++ [d :: dr]⟩) := by
    unfold SegmentArrayTree.add SegmentArrayTree.search_intersecting
    simp only [hserB, getElem?_concat_length]
    rw [if_pos (zip_self_all _), if_neg (Nat.lt_irrefl _)]
  obtain ⟨base₂, hloop₂, hwf₂, hmem₂⟩ := insertLoop_encode A.length
    ((d :: dr).map toSeg ++ ext.map toSeg) base₁ hwf₁
    (fun g hg => by
      rcases List.mem_append.mp hg with hg' | hg'
      · obtain ⟨i, hi, rfl⟩ := List.mem_map.mp hg'
        exact hv i (hmemA i hi)
      · obtain ⟨i, hi, rfl⟩ := List.mem_map.mp hg'
        exact hv i (hmemE i hi))
    (List.pairwise_append.mpr ⟨hpwA, hpwE, hpwX⟩)
    (fun g hg => by
      rcases List.mem_append.mp hg with hg' | hg'
      · exact Or.inl (hstored g hg')
      · refine Or.inr fun x hx => ?_
        rcases (hmem₁ x).mp hx with hxb | ⟨gs, hgs, rfl⟩
        · obtain ⟨i, hi, rfl⟩ := List.mem_map.mp hg'
          exact hdisj i (hmemE i hi) x hxb
        · rcases hpwX gs hgs g hg' with h | h
          · exact Or.inr h
          · exact Or.inl h)
  have hserC : SegmentArrayTree.searchGo (encode base₁) none
      (((d :: dr) ++ ext).map toSeg) = .ok (some A.length) := by
    rw [List.map_append, List.map_cons, List.cons_append]
    exact searchGo_none_owner base₁ hwf₁ A.length (toSeg d)
      (dr.map toSeg ++ ext.map toSeg)
      (hstored _ hdmem)
      (fun g hg => by
        rcases List.mem_append.mp hg with hg' | hg'
        · exact Or.inl (hstored g (by rw [List.map_cons]; exact List.mem_cons_of_mem _ hg'))
        · refine Or.inr ⟨?_, fun x hx => ?_⟩
          · obtain ⟨i, hi, rfl⟩ := List.mem_map.mp hg'
            exact hv i (hmemE i hi)
          · rcases (hmem₁ x).mp hx with hxb | ⟨gs, hgs, rfl⟩
            · obtain ⟨i, hi, rfl⟩ := List.mem_map.mp hg'
              exact hdisj i (hmemE i hi) x hxb
            · rcases hpwX gs hgs g hg' with h | h
              · exact Or.inr h
              · exact Or.inl h)
  refine ⟨encode base₁, encode base₂, haddA, haddB, fun hext => ?_⟩
  have hextlen : 0 < ext.length := List.length_pos.mpr hext
  refine ⟨by rw [List.length_append]; omega, ?_⟩
  unfold SegmentArrayTree.add SegmentArrayTree.search_intersecting
  simp only [hserC, getElem?_concat_length]
  rw [if_pos (by rw [zip_append_left]; exact zip_self_all _)]
  rw [if_pos (by rw [List.length_append]; omega)]
  rw [List.map_append]
  simp only [hloop₂]
  rw [set_concat_length]

/-- Counterexample to C6 as stated: the empty description intersects nothing,
so adding it yields `Added`; adding the very same (empty, hence equal)
description again yields `Added` a second time — a fresh slot — instead of
`AlreadyContained`, because an empty description never produces a `found`
index during the intersection search. -/
theorem segment_array_tree_add_empty_counterexample :
    SegmentArrayTree.add (fun s => s) (⟨[], []⟩ : SegmentArrayTree Seg) [] =
        .ok (.Added, ⟨[], [[]]⟩) ∧
    SegmentArrayTree.add (fun s => s) (⟨[], [[]]⟩ : SegmentArrayTree Seg) [] =
        .ok (.Added, ⟨[], [[], []]⟩) :=
  ⟨rfl, rfl⟩

/-- Witness for C6: the description `[[1,3), [5,7)]` over an empty prior
state, extended by `[9,11)`. -/
theorem segment_array_tree_add_spec_witness :
    ∃ t₁ t₂ : STree Nat,
      SegmentArrayTree.add (fun s => s) (⟨encode [], []⟩ : SegmentArrayTree Seg)
          [⟨1, 3⟩, ⟨5, 7⟩] = .ok (.Added, ⟨t₁, [[⟨1, 3⟩, ⟨5, 7⟩]]⟩) ∧
      SegmentArrayTree.add (fun s => s) ⟨t₁, [[⟨1, 3⟩, ⟨5, 7⟩]]⟩ [⟨1, 3⟩, ⟨5, 7⟩] =
        .ok (.AlreadyContained [⟨1, 3⟩, ⟨5, 7⟩], ⟨t₁, [[⟨1, 3⟩, ⟨5, 7⟩]]⟩) ∧
      (([⟨9, 11⟩] : List Seg) ≠ [] →
        ([⟨1, 3⟩, ⟨5, 7⟩] : List Seg).length <
          ([⟨1, 3⟩, ⟨5, 7⟩] ++ [⟨9, 11⟩] : List Seg).length ∧
        SegmentArrayTree.add (fun s => s) ⟨t₁, [[⟨1, 3⟩, ⟨5, 7⟩]]⟩
            ([⟨1, 3⟩, ⟨5, 7⟩] ++ [⟨9, 11⟩]) =
          .ok (.Replaced [⟨1, 3⟩, ⟨5, 7⟩], ⟨t₂, [[⟨1, 3⟩, ⟨5, 7⟩] ++ [⟨9, 11⟩]]⟩)) :=
  segment_array_tree_add_spec (fun s => s) [] [] ⟨by simp, List.Pairwise.nil⟩
    [⟨1, 3⟩, ⟨5, 7⟩] [⟨9, 11⟩] (by simp) (by decide) (by decide) (by simp)
